import Mathlib

/-!
# EdgePixelizer: block quantizer and coordinate encoder

A shallow embedding of `processImage` and `generateCode` from `src/main.cpp`.

Conventions of the embedding.

* A `cv::Mat` of depth 8 bit is a record of its dimensions, its channel count and a sample
  function `px row col channel`.
* The OpenCV transforms whose pixel arithmetic lies outside the repository (`cvtColor`, `resize`,
  `convertTo`, `GaussianBlur`, `flip`, `Canny`) are taken as a parameter record `Cv`. The two
  calls that can throw on what `processImage` hands them, `resize` (empty target size) and
  `GaussianBlur` (even kernel size), return an `Option`, `none` standing for the `cv::Exception`.
  What the development needs of the calls (when they throw, and the dimensions and channel
  counts of their results, as the OpenCV documentation says) is the predicate `Cv.Lawful`.
* A `float` value is the rational it denotes (NaN and the infinities are not modelled); the
  result of a `float` operation is rounded to binary32 by `toFloat`. C++ `int` loop counters that
  never leave the non-negative range are naturals (signed overflow is undefined behaviour in C++
  and is not modelled).
* `processImage` returns the contents of its two out-parameters together with what it reported
  on `std::cerr`, or the fact that a `cv::Exception` left it; the contents at the call are
  arguments.
-/

namespace EdgePixelizer

/-! ## Data model -/

/-- Integer pair `sf::Vector2i`: a block position in block-grid units. -/
structure Vector2i where
  x : Int
  y : Int
deriving DecidableEq, Repr, Inhabited

/-- Image `cv::Mat` with 8-bit samples: `px r c ch` is the sample of channel `ch` at row `r`,
column `c`. -/
structure Mat where
  rows : Nat
  cols : Nat
  channels : Nat
  px : Nat → Nat → Nat → Nat

/-- Method `cv::Mat::empty()`: no element at all. -/
def Mat.empty (m : Mat) : Bool :=
  m.rows == 0 || m.cols == 0

/-- The default-constructed `cv::Mat()`. -/
def Mat.nil : Mat :=
  ⟨0, 0, 1, fun _ _ _ => 0⟩

/-- Expression `cv::Mat::zeros(size, CV_8UC1)`: a single-channel all-zero bitmap. -/
def Mat.zeros (rows cols : Nat) : Mat :=
  ⟨rows, cols, 1, fun _ _ _ => 0⟩

/-- Call `cv::rectangle(img, {x, y, w, h}, cv::Scalar(v), cv::FILLED)`: every pixel of the image
with column in `[x, x+w)` and row in `[y, y+h)` gets the colour `(v, 0, 0, 0)`; the part of the
rectangle outside the image is clipped away. -/
def Mat.rectangle (img : Mat) (x y w h v : Nat) : Mat :=
  { img with
    px := fun r c ch =>
      if y ≤ r ∧ r < y + h ∧ x ≤ c ∧ c < x + w ∧ r < img.rows ∧ c < img.cols then
        (if ch = 0 then v else 0)
      else img.px r c ch }

/-- Sum of channel 0 over the region of interest `m({x, y, w, h})`. -/
def roiSum (m : Mat) (x y w h : Nat) : Nat :=
  ((List.range h).map fun r => ((List.range w).map fun c => m.px (y + r) (x + c) 0).sum).sum

/-- Value `cv::mean(m({x, y, w, h}))[0]`: the channel-0 sum divided by the number of pixels of the
region (OpenCV accumulates 8-bit samples exactly and divides once, in `double`). -/
def roiMean (m : Mat) (x y w h : Nat) : ℚ :=
  (roiSum m x y w h : ℚ) / ((w * h : Nat) : ℚ)

/-- Record `ProcessingParams`. -/
structure ProcessingParams where
  scale : ℚ
  pixelSize : Int
  brightness : Int
  contrast : ℚ
  applyBlur : Bool
  blurKernel : Int
  cannyLow : Int
  cannyHigh : Int
  flipV : Bool
  flipH : Bool

/-- The default member initialisers of `ProcessingParams`. -/
def ProcessingParams.default : ProcessingParams :=
  { scale := 1 / 2, pixelSize := 10, brightness := 0, contrast := 1, applyBlur := false,
    blurKernel := 3, cannyLow := 50, cannyHigh := 100, flipV := false, flipH := false }

/-! ## The OpenCV transforms used by the pipeline -/

/-- Colour conversion codes used by `processImage`. -/
inductive ColorCode where
  | BGRA2BGR
  | BGR2GRAY
  | BGRA2GRAY
deriving DecidableEq, Repr

/-- Interpolation modes used by `processImage`. -/
inductive Interp where
  | INTER_AREA
  | INTER_LINEAR
deriving DecidableEq, Repr

/-- The OpenCV calls of the transform pipeline. `resize src width height interp` (scale factors
0), `convertTo src alpha beta`, `GaussianBlur src ksize` (square kernel, sigma 0, default
border), `flip src flipCode`, `Canny src low high` (aperture 3, L1 gradient). For `resize` and
`GaussianBlur` the result `none` stands for a thrown `cv::Exception`. -/
structure Cv where
  cvtColor : Mat → ColorCode → Mat
  resize : Mat → Int → Int → Interp → Option Mat
  convertTo : Mat → ℚ → Int → Mat
  GaussianBlur : Mat → Int → Option Mat
  flip : Mat → Int → Mat
  Canny : Mat → Int → Int → Mat

/-- Nearest integer, ties to the even one. -/
def roundHalfEven (q : ℚ) : Int :=
  if q - Rat.floor q < 1 / 2 then Rat.floor q
  else if 1 / 2 < q - Rat.floor q then Rat.floor q + 1
  else if Rat.floor q % 2 = 0 then Rat.floor q
  else Rat.floor q + 1

/-- Rounding of a real value to binary32 `float`: round to nearest, ties to even, with a 24-bit
significand and with the subnormal spacing `2^-149` below `2^-126`. Overflow to infinity (values
of magnitude `2^128` and more) is not modelled. -/
def toFloat (q : ℚ) : ℚ :=
  if q = 0 then 0
  else
    roundHalfEven (q / 2 ^ (max (Int.log 2 |q|) (-126) - 23))
      * 2 ^ (max (Int.log 2 |q|) (-126) - 23)

/-- Function `std::round`: nearest integer, halves away from zero. -/
def stdRound (q : ℚ) : Int :=
  if 0 ≤ q then Rat.floor (q + 1 / 2) else -Rat.floor (-q + 1 / 2)

/-! ## The pixelation loop of `processImage` -/

/-- The two out-parameters of `processImage`. -/
structure Outputs where
  outPixelArtMat : Mat
  outBlockCoords : List Vector2i

/-- Body of the inner loop for the block with origin `(x, y)`. -/
def blockStep (edgeMat : Mat) (pixelSize : Nat) (y x : Nat) (o : Outputs) : Outputs :=
  let spacing := 1
  let drawW_fixed := max 1 (pixelSize - 2 * spacing)
  let drawH_fixed := max 1 (pixelSize - 2 * spacing)
  let blockW := min pixelSize (edgeMat.cols - x)
  let blockH := min pixelSize (edgeMat.rows - y)
  if blockW = 0 ∨ blockH = 0 then o
  else if 0 < roiMean edgeMat x y blockW blockH then
    let coords := o.outBlockCoords ++ [⟨((x / pixelSize : Nat) : Int), ((y / pixelSize : Nat) : Int)⟩]
    let drawX := x + spacing
    let drawY := y + spacing
    if drawX + drawW_fixed ≤ o.outPixelArtMat.cols ∧ drawY + drawH_fixed ≤ o.outPixelArtMat.rows then
      ⟨o.outPixelArtMat.rectangle drawX drawY drawW_fixed drawH_fixed 255, coords⟩
    else if blockW = 1 ∧ blockH = 1 then
      ⟨o.outPixelArtMat.rectangle x y 1 1 255, coords⟩
    else ⟨o.outPixelArtMat, coords⟩
  else o

/-- Inner loop `for (x = ...; x < edgeMat.cols; x += pixelSize)`, entered at `x`. -/
def colLoop (edgeMat : Mat) (pixelSize : Nat) (hp : 0 < pixelSize) (y : Nat) (x : Nat)
    (o : Outputs) : Outputs :=
  if x < edgeMat.cols then
    colLoop edgeMat pixelSize hp y (x + pixelSize) (blockStep edgeMat pixelSize y x o)
  else o
termination_by edgeMat.cols - x
decreasing_by omega

/-- Outer loop `for (y = ...; y < edgeMat.rows; y += pixelSize)`, entered at `y`. -/
def rowLoop (edgeMat : Mat) (pixelSize : Nat) (hp : 0 < pixelSize) (y : Nat)
    (o : Outputs) : Outputs :=
  if y < edgeMat.rows then
    rowLoop edgeMat pixelSize hp (y + pixelSize) (colLoop edgeMat pixelSize hp y 0 o)
  else o
termination_by edgeMat.rows - y
decreasing_by omega

/-- The clamp `std::max(2, params.pixelSize)`. -/
def clampPixelSize (pixelSize : Int) : Nat :=
  (max 2 pixelSize).toNat

/-- Steps 7 and 8 of `processImage`: the visualization starts as an all-zero bitmap of the size of
the edge map and the pixelation loop scans the blocks. `outBlockCoords` holds what the caller's
vector holds at this point (cleared earlier by `processImage`). -/
def pixelate (edgeMat : Mat) (pixelSizeParam : Int) (outBlockCoords : List Vector2i) : Outputs :=
  rowLoop edgeMat (clampPixelSize pixelSizeParam) (by unfold clampPixelSize; omega) 0
    ⟨Mat.zeros edgeMat.rows edgeMat.cols, outBlockCoords⟩

/-! ## `processImage` -/

/-- How `processImage` ends: it runs to the end (`done`), it reports on `std::cerr` and returns
early (`emptyInput`, `unsupportedChannels`), or a `cv::Exception` thrown by an OpenCV call leaves
it (`cvException`; nothing in the program catches it). -/
inductive Report where
  | done
  | emptyInput
  | unsupportedChannels (channels : Nat)
  | cvException
deriving DecidableEq, Repr

/-- State of the two out-parameters when control leaves `processImage`, with how it ended. -/
structure Run where
  out : Outputs
  report : Report

/-- Step 1 of `processImage`: resize when `params.scale != 1.0f`. The target size is
`std::round` of the `float` products `cols * scale` and `rows * scale` (`int` converted to
`float`, product rounded to `float`), cast to `int`. `none` when `resize` throws. -/
def scaleStep (cv : Cv) (params : ProcessingParams) (adjustedMat : Mat) : Option Mat :=
  if params.scale ≠ 1 then
    cv.resize adjustedMat (stdRound (toFloat (toFloat adjustedMat.cols * params.scale)))
      (stdRound (toFloat (toFloat adjustedMat.rows * params.scale)))
      (if params.scale < 1 then Interp.INTER_AREA else Interp.INTER_LINEAR)
  else some adjustedMat

/-- Step 2 of `processImage`: brightness and contrast. -/
def brightnessContrastStep (cv : Cv) (params : ProcessingParams) (adjustedMat : Mat) : Mat :=
  if params.contrast ≠ 1 ∨ params.brightness ≠ 0 then
    cv.convertTo adjustedMat params.contrast params.brightness
  else adjustedMat

/-- Step 3 of `processImage`: blur. `none` when `GaussianBlur` throws. -/
def blurStep (cv : Cv) (params : ProcessingParams) (adjustedMat : Mat) : Option Mat :=
  if params.applyBlur = true ∧ params.blurKernel > 1 then
    cv.GaussianBlur adjustedMat params.blurKernel
  else some adjustedMat

/-- Step 4 of `processImage`: flip. -/
def flipStep (cv : Cv) (params : ProcessingParams) (adjustedMat : Mat) : Mat :=
  let flipCode : Int :=
    if params.flipV = true ∧ params.flipH = true then -1
    else if params.flipV = true then 0
    else if params.flipH = true then 1
    else -2
  if flipCode > -2 then cv.flip adjustedMat flipCode else adjustedMat

/-- Step 5 of `processImage`: grayscale; `none` when the channel count is none of 3, 4, 1. -/
def grayscaleStep (cv : Cv) (adjustedMat : Mat) : Option Mat :=
  if adjustedMat.channels = 3 then some (cv.cvtColor adjustedMat ColorCode.BGR2GRAY)
  else if adjustedMat.channels = 4 then some (cv.cvtColor adjustedMat ColorCode.BGRA2GRAY)
  else if adjustedMat.channels = 1 then some adjustedMat
  else none

/-- Steps 5 to 8 of `processImage`, from the flipped working image on. -/
def finishImage (cv : Cv) (outPixelArtMat : Mat) (params : ProcessingParams)
    (adjustedMat : Mat) : Run :=
  match grayscaleStep cv adjustedMat with
  | none => ⟨⟨outPixelArtMat, []⟩, Report.unsupportedChannels adjustedMat.channels⟩
  | some grayMat =>
    -- 6. Canny, 7. output bitmap, 8. pixelation loop
    let edgeMat := cv.Canny grayMat params.cannyLow params.cannyHigh
    ⟨pixelate edgeMat params.pixelSize [], Report.done⟩

/-- Function `processImage`. The arguments `outPixelArtMat` and `outBlockCoords` are the contents
of the two out-parameters at the call. When an OpenCV call throws, the exception leaves
`processImage` after `outBlockCoords.clear()` and before `outPixelArtMat` is assigned. -/
def processImage (cv : Cv) (originalMat : Mat) (outPixelArtMat : Mat) (params : ProcessingParams)
    (outBlockCoords : List Vector2i) : Run :=
  if originalMat.empty then ⟨⟨outPixelArtMat, outBlockCoords⟩, Report.emptyInput⟩
  else
    let inputMat :=
      if originalMat.channels = 4 then cv.cvtColor originalMat ColorCode.BGRA2BGR else originalMat
    -- outBlockCoords.clear(): every later exit leaves the vector empty or refilled
    match scaleStep cv params inputMat with
    | none => ⟨⟨outPixelArtMat, []⟩, Report.cvException⟩
    | some adjustedMat =>
      match blurStep cv params (brightnessContrastStep cv params adjustedMat) with
      | none => ⟨⟨outPixelArtMat, []⟩, Report.cvException⟩
      | some adjustedMat => finishImage cv outPixelArtMat params (flipStep cv params adjustedMat)

/-! ## `generateCode` -/

/-- Function `std::to_string(int)`: decimal digits, with a leading minus sign for negatives. -/
def to_string (n : Int) : String :=
  toString n

/-- The loop `for (size_t i = 0; i < coords.size(); ++i)` of `generateCode`: each pass appends
the entry of `coords[i]`, written between `opening` and `closing`, and then a newline after the
last entry or `lineEnding` after any other. -/
def entryLoop (coords : List Vector2i) (opening closing lineEnding : String)
    (output : String) : String :=
  (List.range coords.length).foldl
    (fun output i =>
      let output := output ++ (opening ++ to_string (coords.getD i default).x ++ ", "
        ++ to_string (coords.getD i default).y ++ closing)
      output ++ (if i = coords.length - 1 then "\n" else lineEnding))
    output

/-- Function `generateCode`. -/
def generateCode (coords : List Vector2i) (format : String) : String :=
  if coords.isEmpty then "// No edge blocks detected."
  else
    let output := ""
    let lineEnding := ",\n"
    if format = "csharp" then
      let output := output ++
        "private static readonly List<(int x, int y)> edgePixels = new List<(int x, int y)>\n\x7b\n"
      let output := entryLoop coords "    (" ")" lineEnding output
      output ++ "\x7d;"
    else if format = "js" then
      let output := output ++ "const edgePixels = [\n"
      let output := entryLoop coords "  [" "]" lineEnding output
      output ++ "];"
    else if format = "python" then
      let output := output ++ "edge_pixels = [\n"
      let output := entryLoop coords "    (" ")" lineEnding output
      output ++ "]"
    else "// Unknown format selected"

/-! ## Definitions used to state and prove the properties -/

/-- Entries of a declaration body one per line: `",\n"` after every entry but the last, a newline
after the last. -/
def entryLines : List String → String
  | [] => ""
  | [a] => a ++ "\n"
  | a :: b :: rest => a ++ ",\n" ++ entryLines (b :: rest)

/-- Number of blocks along an axis of length `n`: the passes of `for (x = 0; x < n; x += p)`. -/
def blockCount (n p : Nat) : Nat :=
  (n + p - 1) / p

/-- Test made by the loop body on the block in block column `bx` and block row `bz`: the mean of
its clipped region is positive. -/
def blockActive (edgeMat : Mat) (p bx bz : Nat) : Bool :=
  decide (0 < roiMean edgeMat (bx * p) (bz * p) (min p (edgeMat.cols - bx * p))
    (min p (edgeMat.rows - bz * p)))

/-- Active blocks of block row `bz`, from block column `k` on, left to right. -/
def rowCoords (edgeMat : Mat) (p bz k : Nat) : List Vector2i :=
  ((List.range' k (blockCount edgeMat.cols p - k)).filter fun (bx : Nat) =>
    blockActive edgeMat p bx bz).map fun (bx : Nat) => ⟨(bx : Int), (bz : Int)⟩

/-- Active blocks in row-major scan order, from block row `j` on. -/
def gridCoords (edgeMat : Mat) (p j : Nat) : List Vector2i :=
  (List.range' j (blockCount edgeMat.rows p - j)).flatMap fun (bz : Nat) => rowCoords edgeMat p bz 0

/-- A 7 x 5 edge map (7 columns, 5 rows) with edge pixels at (column 3, row 0), (column 0, row 4)
and (column 6, row 4), for worked examples. -/
def sampleEdgeMap : Mat :=
  ⟨5, 7, 1, fun r c _ =>
    if (r = 0 ∧ c = 3) ∨ (r = 4 ∧ c = 0) ∨ (r = 4 ∧ c = 6) then 255 else 0⟩

/-- A simple instance of the OpenCV calls with the documented exceptions, result sizes and
channel counts (pixel arithmetic left out), for worked examples. -/
def Cv.sample : Cv where
  cvtColor m code := { m with channels := if code = ColorCode.BGRA2BGR then 3 else 1 }
  resize m w h _ := if w ≤ 0 ∨ h ≤ 0 then none else some { m with rows := h.toNat, cols := w.toNat }
  convertTo m _ _ := m
  GaussianBlur m k := if k % 2 = 0 then none else some m
  flip m _ := m
  Canny m _ _ := { m with channels := 1 }

/-- A parameter record with `scale` 1 and every optional stage off. -/
def ProcessingParams.identity : ProcessingParams :=
  { ProcessingParams.default with scale := 1 }

/-- A 1 x 1 image with two channels, a channel count `processImage` does not support. -/
def twoChannelMat : Mat :=
  ⟨1, 1, 2, fun _ _ _ => 0⟩

/-- Value of a string of decimal digits, most significant digit first. -/
def decimalValue (digits : List Char) : Nat :=
  digits.foldl (fun acc c => acc * 10 + (c.toNat - 48)) 0

/-- A character that `std::to_string(int)` can produce: a decimal digit or the minus sign. -/
def isNumeric (c : Char) : Bool :=
  c.isDigit || c == '-'

/-- Pixel at row `r`, column `c` is painted by the loop body for the block in block column `bx`
and block row `bz`: the block is active and either the inset square fits the bitmap and holds the
pixel, or it does not fit, the clipped block is 1 x 1 and the pixel is the block origin. -/
def blockPaints (edgeMat : Mat) (p bx bz r c : Nat) : Bool :=
  blockActive edgeMat p bx bz &&
    (if bx * p + 1 + max 1 (p - 2) ≤ edgeMat.cols ∧ bz * p + 1 + max 1 (p - 2) ≤ edgeMat.rows then
      decide (bz * p + 1 ≤ r ∧ r < bz * p + 1 + max 1 (p - 2)
        ∧ bx * p + 1 ≤ c ∧ c < bx * p + 1 + max 1 (p - 2))
    else if min p (edgeMat.cols - bx * p) = 1 ∧ min p (edgeMat.rows - bz * p) = 1 then
      decide (r = bz * p ∧ c = bx * p)
    else false)

/-- The block with origin `(x, y)` is active: some pixel of the edge map in its clipped extent,
columns `[x, min(x+p, W))` and rows `[y, min(y+p, H))`, is non-zero. -/
def activeBlock (edgeMat : Mat) (p x y : Nat) : Prop :=
  ∃ col row, x ≤ col ∧ col < min (x + p) edgeMat.cols ∧ y ≤ row ∧ row < min (y + p) edgeMat.rows
    ∧ edgeMat.px row col 0 ≠ 0

/-- The stated condition for the visualization pixel in column `i` and row `j` to be lit, with
`(x, y) = (p*floor(i/p), p*floor(j/p))` the origin of its block and `d = max(1, p-2)`: the block
is active and either (a) the inset square fits the bitmap and holds the pixel, or (b) the inset
square does not fit, the clipped block is exactly 1 x 1 and the pixel is the block origin. -/
def visualizationSpec (edgeMat : Mat) (p i j : Nat) : Prop :=
  activeBlock edgeMat p (p * (i / p)) (p * (j / p))
  ∧ ((p * (i / p) + 1 + max 1 (p - 2) ≤ edgeMat.cols
        ∧ p * (j / p) + 1 + max 1 (p - 2) ≤ edgeMat.rows
        ∧ p * (i / p) + 1 ≤ i ∧ i ≤ p * (i / p) + max 1 (p - 2)
        ∧ p * (j / p) + 1 ≤ j ∧ j ≤ p * (j / p) + max 1 (p - 2))
    ∨ (¬ (p * (i / p) + 1 + max 1 (p - 2) ≤ edgeMat.cols
          ∧ p * (j / p) + 1 + max 1 (p - 2) ≤ edgeMat.rows)
        ∧ min (p * (i / p) + p) edgeMat.cols - p * (i / p) = 1
        ∧ min (p * (j / p) + p) edgeMat.rows - p * (j / p) = 1
        ∧ i = p * (i / p) ∧ j = p * (j / p)))

theorem intercalate_go_newline (l : List String) (acc : String) :
    String.intercalate.go acc ",\n" l ++ "\n"
      = acc ++ (if l = [] then "\n" else ",\n" ++ entryLines l) := by
  induction l generalizing acc with
  | nil => simp [String.intercalate.go]
  | cons a rest ih =>
    rw [String.intercalate.go, ih]
    cases rest with
    | nil => simp [entryLines, String.append_assoc]
    | cons b rest => simp [entryLines, String.append_assoc]

theorem intercalate_newline (l : List String) (hl : l ≠ []) :
    ",\n".intercalate l ++ "\n" = entryLines l := by
  cases l with
  | nil => exact absurd rfl hl
  | cons a rest =>
    rw [String.intercalate, intercalate_go_newline]
    cases rest with
    | nil => simp [entryLines]
    | cons b rest => simp [entryLines, String.append_assoc]

theorem entryLoop_aux (opening closing : String) (suf pre : List Vector2i) (output : String) :
    (List.range' pre.length suf.length).foldl
      (fun output i =>
        let output := output ++ (opening ++ to_string ((pre ++ suf).getD i default).x ++ ", "
          ++ to_string ((pre ++ suf).getD i default).y ++ closing)
        output ++ (if i = (pre ++ suf).length - 1 then "\n" else ",\n"))
      output
    = output ++ entryLines (suf.map fun c =>
        opening ++ to_string c.x ++ ", " ++ to_string c.y ++ closing) := by
  induction suf generalizing pre output with
  | nil => simp [entryLines]
  | cons a rest ih =>
    have h := ih (pre ++ [a])
    simp only [List.append_assoc, List.singleton_append, List.length_append, List.length_cons,
      List.length_nil, Nat.zero_add] at h
    simp only [List.length_cons, List.range'_succ, List.foldl_cons, List.map_cons,
      List.length_append]
    rw [h]
    have hget : (pre ++ a :: rest).getD pre.length default = a := by
      rw [List.getD_eq_getElem?_getD, List.getElem?_append_right (Nat.le_refl _)]
      simp
    rw [hget]
    cases rest with
    | nil => simp [entryLines, String.append_assoc]
    | cons b rest =>
      have : ¬ (pre.length = pre.length + (rest.length + 1 + 1) - 1) := by omega
      simp [this, entryLines, String.append_assoc]

theorem entryLoop_eq (opening closing : String) (coords : List Vector2i) (output : String) :
    entryLoop coords opening closing ",\n" output
      = output ++ entryLines (coords.map fun c =>
          opening ++ to_string c.x ++ ", " ++ to_string c.y ++ closing) := by
  have h := entryLoop_aux opening closing coords [] output
  simpa [entryLoop, List.range_eq_range'] using h

theorem generateCode_of_ne_nil (coords : List Vector2i) (hne : coords ≠ []) (format : String) :
    generateCode coords format =
      if format = "csharp" then
        "private static readonly List<(int x, int y)> edgePixels = new List<(int x, int y)>\n\x7b\n"
          ++ (",\n".intercalate
            (coords.map fun c => "    (" ++ to_string c.x ++ ", " ++ to_string c.y ++ ")")
          ++ "\n") ++ "\x7d;"
      else if format = "js" then
        "const edgePixels = [\n"
          ++ (",\n".intercalate
            (coords.map fun c => "  [" ++ to_string c.x ++ ", " ++ to_string c.y ++ "]")
          ++ "\n") ++ "];"
      else if format = "python" then
        "edge_pixels = [\n"
          ++ (",\n".intercalate
            (coords.map fun c => "    (" ++ to_string c.x ++ ", " ++ to_string c.y ++ ")")
          ++ "\n") ++ "]"
      else "// Unknown format selected" := by
  have hemp : coords.isEmpty = false := by
    cases coords with
    | nil => exact absurd rfl hne
    | cons a rest => rfl
  have hmap : ∀ f : Vector2i → String, coords.map f ≠ [] := by
    intro f h
    exact hne (List.map_eq_nil_iff.mp h)
  unfold generateCode
  simp only [hemp, Bool.false_eq_true, if_false, entryLoop_eq, String.empty_append]
  rw [intercalate_newline _ (hmap _), intercalate_newline _ (hmap _)]

/-- C3. For a non-empty coordinate sequence, `generateCode` returns, for each recognised format,
the format's prefix, then the entries in input order joined by `",\n"` (nothing after the last
one), then a newline and the format's suffix; for `[(0,0),(1,2),(3,1)]` in C# format the text
holds exactly the entries `(0, 0)`, `(1, 2)`, `(3, 1)` in that order. -/
theorem generateCode_layout (coords : List Vector2i) (hne : coords ≠ []) :
    generateCode coords "csharp"
        = "private static readonly List<(int x, int y)> edgePixels = new List<(int x, int y)>\n\x7b\n"
          ++ ",\n".intercalate
            (coords.map fun c => "    (" ++ to_string c.x ++ ", " ++ to_string c.y ++ ")")
          ++ "\n" ++ "\x7d;"
    ∧ generateCode coords "js"
        = "const edgePixels = [\n"
          ++ ",\n".intercalate
            (coords.map fun c => "  [" ++ to_string c.x ++ ", " ++ to_string c.y ++ "]")
          ++ "\n" ++ "];"
    ∧ generateCode coords "python"
        = "edge_pixels = [\n"
          ++ ",\n".intercalate
            (coords.map fun c => "    (" ++ to_string c.x ++ ", " ++ to_string c.y ++ ")")
          ++ "\n" ++ "]"
    ∧ generateCode [⟨0, 0⟩, ⟨1, 2⟩, ⟨3, 1⟩] "csharp"
        = "private static readonly List<(int x, int y)> edgePixels = new List<(int x, int y)>\n\x7b\n    (0, 0),\n    (1, 2),\n    (3, 1)\n\x7d;" := by
  refine ⟨?_, ?_, ?_, by decide⟩
  · rw [generateCode_of_ne_nil coords hne, if_pos rfl]
    simp only [String.append_assoc]
  · rw [generateCode_of_ne_nil coords hne, if_neg (by decide), if_pos rfl]
    simp only [String.append_assoc]
  · rw [generateCode_of_ne_nil coords hne, if_neg (by decide), if_neg (by decide), if_pos rfl]
    simp only [String.append_assoc]

theorem generateCode_layout_witness :
    generateCode [⟨4, -7⟩, ⟨0, 12⟩] "js" = "const edgePixels = [\n  [4, -7],\n  [0, 12]\n];" := by
  have h := (generateCode_layout [⟨4, -7⟩, ⟨0, 12⟩] (by decide)).2.1
  rw [h]
  decide

/-- C4. For the empty coordinate sequence `generateCode` returns exactly the fixed comment
`// No edge blocks detected.`, whatever the format string; in particular the result is none of
the three declarations with an empty body. -/
theorem generateCode_nil (format : String) :
    generateCode [] format = "// No edge blocks detected."
    ∧ generateCode [] format
        ≠ "private static readonly List<(int x, int y)> edgePixels = new List<(int x, int y)>\n\x7b\n\x7d;"
    ∧ generateCode [] format ≠ "const edgePixels = [\n];"
    ∧ generateCode [] format ≠ "edge_pixels = [\n]" := by
  have h : generateCode [] format = "// No edge blocks detected." := rfl
  rw [h]
  exact ⟨rfl, by decide, by decide, by decide⟩

/-- C5. For a non-empty coordinate sequence and a format string other than `csharp`, `js` and
`python`, `generateCode` returns exactly the comment `// Unknown format selected`; the embedding
is a total function, so the call returns. -/
theorem generateCode_unknown (coords : List Vector2i) (format : String) (hne : coords ≠ [])
    (h1 : format ≠ "csharp") (h2 : format ≠ "js") (h3 : format ≠ "python") :
    generateCode coords format = "// Unknown format selected" := by
  rw [generateCode_of_ne_nil coords hne, if_neg h1, if_neg h2, if_neg h3]

theorem generateCode_unknown_witness :
    generateCode [⟨0, 0⟩, ⟨1, 2⟩, ⟨3, 1⟩] "bogus" = "// Unknown format selected" :=
  generateCode_unknown [⟨0, 0⟩, ⟨1, 2⟩, ⟨3, 1⟩] "bogus" (by decide) (by decide) (by decide)
    (by decide)

/-- C9, as stated, fails: for the empty sequence and the format `python` the returned text does
not start with `#`. -/
theorem generateCode_nil_python_not_hash :
    ¬ ∃ rest : String, generateCode [] "python" = "#" ++ rest := by
  rintro ⟨rest, h⟩
  have hd := congrArg String.data h
  rw [show generateCode [] "python" = "// No edge blocks detected." from rfl] at hd
  simp [String.data_append] at hd

/-- C9, amended. For the empty sequence `generateCode` returns one and the same comment for every
format string, and that comment starts with `//`: for `csharp` and `js`, and for `python` too. -/
theorem generateCode_nil_comment_syntax (format : String) :
    generateCode [] format = generateCode [] "csharp"
    ∧ ∃ rest : String, generateCode [] format = "//" ++ rest := by
  exact ⟨rfl, " No edge blocks detected.", rfl⟩

/-! ## The block quantizer -/

theorem lt_blockCount_iff (n p k : Nat) (hp : 0 < p) : k < blockCount n p ↔ k * p < n := by
  unfold blockCount
  rw [Nat.lt_iff_add_one_le, Nat.le_div_iff_mul_le hp, Nat.add_mul]
  omega

theorem roiSum_pos_iff (m : Mat) (x y w h : Nat) :
    0 < roiSum m x y w h ↔ ∃ r c, r < h ∧ c < w ∧ m.px (y + r) (x + c) 0 ≠ 0 := by
  rw [Nat.pos_iff_ne_zero, Ne, roiSum, List.sum_eq_zero_iff]
  simp only [List.mem_map, List.mem_range, forall_exists_index, and_imp,
    forall_apply_eq_imp_iff₂, List.sum_eq_zero_iff]
  push_neg
  constructor
  · rintro ⟨r, hr, c, hc, hne⟩
    exact ⟨r, c, hr, hc, hne⟩
  · rintro ⟨r, c, hr, hc, hne⟩
    exact ⟨r, hr, c, hc, hne⟩

theorem roiMean_pos_iff (m : Mat) (x y w h : Nat) :
    0 < roiMean m x y w h ↔ ∃ r c, r < h ∧ c < w ∧ m.px (y + r) (x + c) 0 ≠ 0 := by
  rw [← roiSum_pos_iff]
  unfold roiMean
  constructor
  · intro hpos
    by_contra hz
    have h0 : roiSum m x y w h = 0 := by omega
    simp [h0] at hpos
  · intro hpos
    obtain ⟨r, c, hr, hc, -⟩ := (roiSum_pos_iff m x y w h).mp hpos
    have hw : 0 < w := by omega
    have hh : 0 < h := by omega
    have hwh : 0 < w * h := Nat.mul_pos hw hh
    apply div_pos
    · exact_mod_cast hpos
    · exact_mod_cast hwh

theorem blockStep_coords (edgeMat : Mat) (p bx bz : Nat) (hp : 0 < p) (o : Outputs) :
    (blockStep edgeMat p (bz * p) (bx * p) o).outBlockCoords
      = o.outBlockCoords
        ++ (if blockActive edgeMat p bx bz = true then [⟨(bx : Int), (bz : Int)⟩] else []) := by
  unfold blockStep blockActive
  simp only [Nat.mul_div_left _ hp, decide_eq_true_eq]
  by_cases hz : min p (edgeMat.cols - bx * p) = 0 ∨ min p (edgeMat.rows - bz * p) = 0
  · have hnot : ¬ 0 < roiMean edgeMat (bx * p) (bz * p) (min p (edgeMat.cols - bx * p))
        (min p (edgeMat.rows - bz * p)) := by
      rw [roiMean_pos_iff]
      rintro ⟨r, c, hr, hc, -⟩
      omega
    simp [hz, hnot]
  · simp only [hz, if_false]
    split_ifs <;> simp

theorem colLoop_coords (edgeMat : Mat) (p : Nat) (hp : 0 < p) (bz : Nat) :
    ∀ (n k : Nat) (o : Outputs), blockCount edgeMat.cols p - k = n →
      (colLoop edgeMat p hp (bz * p) (k * p) o).outBlockCoords
        = o.outBlockCoords ++ rowCoords edgeMat p bz k := by
  intro n
  induction n with
  | zero =>
    intro k o hn
    have hk : ¬ k * p < edgeMat.cols := by
      rw [← lt_blockCount_iff _ _ _ hp]
      omega
    rw [colLoop, if_neg hk]
    simp [rowCoords, hn]
  | succ n ih =>
    intro k o hn
    have hk : k * p < edgeMat.cols := by
      rw [← lt_blockCount_iff _ _ _ hp]
      omega
    rw [colLoop, if_pos hk, show k * p + p = (k + 1) * p from (Nat.succ_mul k p).symm,
      ih (k + 1) _ (by omega), blockStep_coords edgeMat p k bz hp]
    unfold rowCoords
    rw [hn, show blockCount edgeMat.cols p - (k + 1) = n from by omega, List.range'_succ,
      List.filter_cons]
    by_cases ha : blockActive edgeMat p k bz = true
    · simp [ha]
    · simp [ha]

theorem rowLoop_coords (edgeMat : Mat) (p : Nat) (hp : 0 < p) :
    ∀ (n j : Nat) (o : Outputs), blockCount edgeMat.rows p - j = n →
      (rowLoop edgeMat p hp (j * p) o).outBlockCoords
        = o.outBlockCoords ++ gridCoords edgeMat p j := by
  intro n
  induction n with
  | zero =>
    intro j o hn
    have hj : ¬ j * p < edgeMat.rows := by
      rw [← lt_blockCount_iff _ _ _ hp]
      omega
    rw [rowLoop, if_neg hj]
    simp [gridCoords, hn]
  | succ n ih =>
    intro j o hn
    have hj : j * p < edgeMat.rows := by
      rw [← lt_blockCount_iff _ _ _ hp]
      omega
    have hcol := colLoop_coords edgeMat p hp j (blockCount edgeMat.cols p) 0 o (by omega)
    rw [Nat.zero_mul] at hcol
    rw [rowLoop, if_pos hj, show j * p + p = (j + 1) * p from (Nat.succ_mul j p).symm,
      ih (j + 1) _ (by omega), hcol]
    unfold gridCoords
    rw [hn, show blockCount edgeMat.rows p - (j + 1) = n from by omega, List.range'_succ,
      List.flatMap_cons, List.append_assoc]

theorem pixelate_coords_eq (edgeMat : Mat) (pixelSize : Int) (coords : List Vector2i) :
    (pixelate edgeMat pixelSize coords).outBlockCoords
      = coords ++ gridCoords edgeMat (clampPixelSize pixelSize) 0 := by
  have h := rowLoop_coords edgeMat (clampPixelSize pixelSize)
    (by unfold clampPixelSize; omega) (blockCount edgeMat.rows (clampPixelSize pixelSize)) 0
    ⟨Mat.zeros edgeMat.rows edgeMat.cols, coords⟩ (by omega)
  rw [Nat.zero_mul] at h
  exact h

theorem blockActive_iff (edgeMat : Mat) (p bx bz : Nat) :
    blockActive edgeMat p bx bz = true ↔
      ∃ col row, bx * p ≤ col ∧ col < bx * p + p ∧ col < edgeMat.cols ∧
        bz * p ≤ row ∧ row < bz * p + p ∧ row < edgeMat.rows ∧ edgeMat.px row col 0 ≠ 0 := by
  unfold blockActive
  rw [decide_eq_true_eq, roiMean_pos_iff]
  constructor
  · rintro ⟨r, c, hr, hc, hne⟩
    refine ⟨bx * p + c, bz * p + r, ?_, ?_, ?_, ?_, ?_, ?_, hne⟩ <;> omega
  · rintro ⟨col, row, h1, h2, h3, h4, h5, h6, hne⟩
    refine ⟨row - bz * p, col - bx * p, ?_, ?_, ?_⟩
    · omega
    · omega
    · rw [Nat.add_sub_cancel' h4, Nat.add_sub_cancel' h1]
      exact hne

theorem mem_gridCoords_iff (edgeMat : Mat) (p : Nat) (hp : 0 < p) (v : Vector2i) :
    v ∈ gridCoords edgeMat p 0 ↔
      ∃ bx bz : Nat, v = ⟨(bx : Int), (bz : Int)⟩ ∧ bx * p < edgeMat.cols ∧
        bz * p < edgeMat.rows ∧ blockActive edgeMat p bx bz = true := by
  unfold gridCoords rowCoords
  simp only [List.mem_flatMap, List.mem_map, List.mem_filter, List.mem_range'_1, Nat.sub_zero,
    Nat.zero_add, Nat.zero_le, true_and, lt_blockCount_iff _ _ _ hp]
  constructor
  · rintro ⟨bz, hz, bx, ⟨hx, ha⟩, rfl⟩
    exact ⟨bx, bz, rfl, hx, hz, ha⟩
  · rintro ⟨bx, bz, rfl, hx, hz, ha⟩
    exact ⟨bz, hz, bx, ⟨hx, ha⟩, rfl⟩

theorem gridCoords_pairwise (edgeMat : Mat) (p : Nat) :
    (gridCoords edgeMat p 0).Pairwise fun a b => a.y < b.y ∨ (a.y = b.y ∧ a.x < b.x) := by
  unfold gridCoords rowCoords
  rw [List.pairwise_flatMap]
  constructor
  · intro bz _
    rw [List.pairwise_map]
    apply List.Pairwise.filter
    apply List.Pairwise.imp _ (List.pairwise_lt_range' _ _)
    intro a b hab
    right
    exact ⟨rfl, Int.ofNat_lt.mpr hab⟩
  · apply List.Pairwise.imp _ (List.pairwise_lt_range' _ _)
    intro a b hab u hu v hv
    simp only [List.mem_map, List.mem_filter] at hu hv
    obtain ⟨_, _, rfl⟩ := hu
    obtain ⟨_, _, rfl⟩ := hv
    left
    exact Int.ofNat_lt.mpr hab

theorem clampPixelSize_cast (pixelSize : Int) :
    ((clampPixelSize pixelSize : Nat) : Int) = max 2 pixelSize := by
  unfold clampPixelSize
  omega

theorem clampPixelSize_pos (pixelSize : Int) : 0 < clampPixelSize pixelSize := by
  unfold clampPixelSize
  omega

theorem block_index_nonneg (b p c : Int) (hp : 0 < p) (hc : 0 ≤ c) (h : c < b * p + p) :
    0 ≤ b := by
  by_contra hb
  have hb1 : b + 1 ≤ 0 := by omega
  have : (b + 1) * p ≤ 0 := mul_nonpos_of_nonpos_of_nonneg hb1 hp.le
  have : b * p + p = (b + 1) * p := by ring
  omega

/-- C1. The coordinate sequence left by the pixelation loop of `processImage` (entered with the
vector cleared), for any edge map and any `pixelSize` with `p = max(2, pixelSize)`: a pair
`(bx, bz)` occurs in it iff `bx*p < W`, `bz*p < H` and some pixel with column in
`[bx*p, min(bx*p+p, W))` and row in `[bz*p, min(bz*p+p, H))` is non-zero; no pair occurs twice;
and the sequence is strictly increasing in the lexicographic order on `(y, x)`, that is, it is in
row-major scan order. -/
theorem pixelate_coords_row_major (edgeMat : Mat) (pixelSize : Int) :
    (∀ bx bz : Int, (⟨bx, bz⟩ : Vector2i) ∈ (pixelate edgeMat pixelSize []).outBlockCoords ↔
        bx * max 2 pixelSize < edgeMat.cols ∧ bz * max 2 pixelSize < edgeMat.rows ∧
        ∃ col row : Nat,
          bx * max 2 pixelSize ≤ col ∧
          (col : Int) < min (bx * max 2 pixelSize + max 2 pixelSize) edgeMat.cols ∧
          bz * max 2 pixelSize ≤ row ∧
          (row : Int) < min (bz * max 2 pixelSize + max 2 pixelSize) edgeMat.rows ∧
          edgeMat.px row col 0 ≠ 0)
    ∧ (pixelate edgeMat pixelSize []).outBlockCoords.Nodup
    ∧ (pixelate edgeMat pixelSize []).outBlockCoords.Pairwise
        (fun a b => a.y < b.y ∨ (a.y = b.y ∧ a.x < b.x)) := by
  have hP := clampPixelSize_cast pixelSize
  have hP0 := clampPixelSize_pos pixelSize
  rw [pixelate_coords_eq, List.nil_append, ← hP]
  generalize clampPixelSize pixelSize = p at hP0
  have hpw := gridCoords_pairwise edgeMat p
  refine ⟨?_, ?_, hpw⟩
  · intro bx bz
    rw [mem_gridCoords_iff edgeMat p hP0]
    simp only [lt_min_iff]
    constructor
    · rintro ⟨i, j, heq, hx, hz, ha⟩
      obtain ⟨rfl, rfl⟩ := Vector2i.mk.inj heq
      obtain ⟨col, row, h1, h2, h3, h4, h5, h6, hne⟩ := (blockActive_iff edgeMat p i j).mp ha
      refine ⟨by exact_mod_cast hx, by exact_mod_cast hz, col, row, by exact_mod_cast h1,
        ⟨by exact_mod_cast h2, by exact_mod_cast h3⟩, by exact_mod_cast h4,
        ⟨by exact_mod_cast h5, by exact_mod_cast h6⟩, hne⟩
    · rintro ⟨hx, hz, col, row, h1, ⟨h2, h3⟩, h4, ⟨h5, h6⟩, hne⟩
      have hp' : (0 : Int) < p := by exact_mod_cast hP0
      have hbx : 0 ≤ bx := block_index_nonneg bx p col hp' (Int.natCast_nonneg col) h2
      have hbz : 0 ≤ bz := block_index_nonneg bz p row hp' (Int.natCast_nonneg row) h5
      lift bx to ℕ using hbx
      lift bz to ℕ using hbz
      refine ⟨bx, bz, rfl, by exact_mod_cast hx, by exact_mod_cast hz, ?_⟩
      rw [blockActive_iff]
      exact ⟨col, row, by exact_mod_cast h1, by exact_mod_cast h2, by exact_mod_cast h3,
        by exact_mod_cast h4, by exact_mod_cast h5, by exact_mod_cast h6, hne⟩
  · apply List.Pairwise.imp _ hpw
    rintro a b (h | h) heq
    · rw [heq] at h
      exact lt_irrefl _ h
    · rw [heq] at h
      exact lt_irrefl _ h.2

theorem blockCount_eq_ceil (n p : Nat) (hp : 0 < p) :
    ((blockCount n p : Nat) : Int) = ⌈(n : ℚ) / (p : ℚ)⌉ := by
  have hpq : (0 : ℚ) < (p : ℚ) := by exact_mod_cast hp
  have hdiv := Nat.div_add_mod (n + p - 1) p
  have hmod := Nat.mod_lt (n + p - 1) hp
  symm
  rw [Int.ceil_eq_iff]
  unfold blockCount
  generalize (n + p - 1) / p = b at hdiv
  generalize (n + p - 1) % p = r at hdiv hmod
  have h1 : n ≤ p * b := by omega
  have h2 : p * b < n + p := by omega
  constructor
  · rw [lt_div_iff₀ hpq]
    have : ((p * b : Nat) : ℚ) < ((n + p : Nat) : ℚ) := by exact_mod_cast h2
    push_cast at this ⊢
    linarith
  · rw [div_le_iff₀ hpq]
    have : ((n : Nat) : ℚ) ≤ ((p * b : Nat) : ℚ) := by exact_mod_cast h1
    push_cast at this ⊢
    linarith

theorem flatMap_length_le (f : Nat → List Vector2i) (bound : Nat)
    (hf : ∀ b, (f b).length ≤ bound) :
    ∀ n j, ((List.range' j n).flatMap f).length ≤ n * bound := by
  intro n
  induction n with
  | zero => intro j; simp
  | succ n ih =>
    intro j
    rw [List.range'_succ, List.flatMap_cons, List.length_append, Nat.succ_mul]
    have h1 := hf j
    have h2 := ih (j + 1)
    omega

theorem gridCoords_length_le (edgeMat : Mat) (p : Nat) :
    (gridCoords edgeMat p 0).length ≤ blockCount edgeMat.cols p * blockCount edgeMat.rows p := by
  unfold gridCoords
  rw [Nat.mul_comm]
  apply flatMap_length_le
  intro b
  unfold rowCoords
  rw [List.length_map]
  refine le_trans (List.length_filter_le _ _) ?_
  simp

/-- C2. Block coverage: for an edge map of size `W x H` and `pixelSize = p >= 2`, every
coordinate `(x, y)` emitted by the pixelation loop has `0 <= x < ceil(W/p)` and
`0 <= y < ceil(H/p)`, and the sequence has at most `ceil(W/p) * ceil(H/p)` members. -/
theorem pixelate_coords_bounds (edgeMat : Mat) (pixelSize : Int) (hp : 2 ≤ pixelSize) :
    (∀ c ∈ (pixelate edgeMat pixelSize []).outBlockCoords,
        0 ≤ c.x ∧ c.x < ⌈(edgeMat.cols : ℚ) / (pixelSize : ℚ)⌉
        ∧ 0 ≤ c.y ∧ c.y < ⌈(edgeMat.rows : ℚ) / (pixelSize : ℚ)⌉)
    ∧ ((pixelate edgeMat pixelSize []).outBlockCoords.length : Int)
        ≤ ⌈(edgeMat.cols : ℚ) / (pixelSize : ℚ)⌉ * ⌈(edgeMat.rows : ℚ) / (pixelSize : ℚ)⌉ := by
  have hP : ((clampPixelSize pixelSize : Nat) : Int) = pixelSize := by
    rw [clampPixelSize_cast]
    exact max_eq_right hp
  have hP0 := clampPixelSize_pos pixelSize
  have hq : (pixelSize : ℚ) = ((clampPixelSize pixelSize : Nat) : ℚ) := by
    calc (pixelSize : ℚ) = (((clampPixelSize pixelSize : Nat) : ℤ) : ℚ) := by rw [hP]
      _ = ((clampPixelSize pixelSize : Nat) : ℚ) := Int.cast_natCast _
  rw [pixelate_coords_eq, List.nil_append, hq,
    ← blockCount_eq_ceil _ _ hP0, ← blockCount_eq_ceil _ _ hP0]
  generalize clampPixelSize pixelSize = p at hP0
  constructor
  · intro c hc
    obtain ⟨bx, bz, rfl, hx, hz, -⟩ := (mem_gridCoords_iff edgeMat p hP0 c).mp hc
    rw [← lt_blockCount_iff _ _ _ hP0] at hx hz
    exact ⟨Int.natCast_nonneg bx, Int.ofNat_lt.mpr hx, Int.natCast_nonneg bz,
      Int.ofNat_lt.mpr hz⟩
  · exact_mod_cast gridCoords_length_le edgeMat p

theorem pixelate_coords_bounds_witness :
    (∀ c ∈ (pixelate (sampleEdgeMap) 3 []).outBlockCoords,
        0 ≤ c.x ∧ c.x < ⌈(((sampleEdgeMap).cols : ℕ) : ℚ) / ((3 : ℤ) : ℚ)⌉
        ∧ 0 ≤ c.y ∧ c.y < ⌈(((sampleEdgeMap).rows : ℕ) : ℚ) / ((3 : ℤ) : ℚ)⌉)
    ∧ ((pixelate (sampleEdgeMap) 3 []).outBlockCoords.length : Int)
        ≤ ⌈(((sampleEdgeMap).cols : ℕ) : ℚ) / ((3 : ℤ) : ℚ)⌉
          * ⌈(((sampleEdgeMap).rows : ℕ) : ℚ) / ((3 : ℤ) : ℚ)⌉ :=
  pixelate_coords_bounds (sampleEdgeMap) 3 (by decide)

/-! ## `processImage` as a whole -/

theorem colLoop_invariant (edgeMat : Mat) (p : Nat) (hp : 0 < p) (y : Nat)
    (inv : Outputs → Prop) (hstep : ∀ x o, inv o → inv (blockStep edgeMat p y x o)) :
    ∀ (n x : Nat) (o : Outputs), edgeMat.cols - x = n → inv o →
      inv (colLoop edgeMat p hp y x o) := by
  intro n
  induction n using Nat.strong_induction_on with
  | _ n ih =>
    intro x o hn ho
    rw [colLoop]
    split_ifs with hx
    · exact ih (edgeMat.cols - (x + p)) (by omega) (x + p) _ rfl (hstep x o ho)
    · exact ho

theorem rowLoop_invariant (edgeMat : Mat) (p : Nat) (hp : 0 < p)
    (inv : Outputs → Prop) (hstep : ∀ y x o, inv o → inv (blockStep edgeMat p y x o)) :
    ∀ (n y : Nat) (o : Outputs), edgeMat.rows - y = n → inv o →
      inv (rowLoop edgeMat p hp y o) := by
  intro n
  induction n using Nat.strong_induction_on with
  | _ n ih =>
    intro y o hn ho
    rw [rowLoop]
    split_ifs with hy
    · exact ih (edgeMat.rows - (y + p)) (by omega) (y + p) _ rfl
        (colLoop_invariant edgeMat p hp y inv (hstep y) _ 0 o rfl ho)
    · exact ho

theorem blockStep_size (edgeMat : Mat) (p y x : Nat) (o : Outputs) :
    (blockStep edgeMat p y x o).outPixelArtMat.rows = o.outPixelArtMat.rows
    ∧ (blockStep edgeMat p y x o).outPixelArtMat.cols = o.outPixelArtMat.cols
    ∧ (blockStep edgeMat p y x o).outPixelArtMat.channels = o.outPixelArtMat.channels := by
  unfold blockStep
  simp only
  split_ifs <;> simp [Mat.rectangle]

theorem pixelate_size (edgeMat : Mat) (pixelSize : Int) (coords : List Vector2i) :
    (pixelate edgeMat pixelSize coords).outPixelArtMat.rows = edgeMat.rows
    ∧ (pixelate edgeMat pixelSize coords).outPixelArtMat.cols = edgeMat.cols
    ∧ (pixelate edgeMat pixelSize coords).outPixelArtMat.channels = 1 := by
  unfold pixelate
  apply rowLoop_invariant edgeMat _ _
    (fun o => o.outPixelArtMat.rows = edgeMat.rows ∧ o.outPixelArtMat.cols = edgeMat.cols
      ∧ o.outPixelArtMat.channels = 1) _ _ 0 _ rfl
  · exact ⟨rfl, rfl, rfl⟩
  · intro y x o ho
    obtain ⟨h1, h2, h3⟩ := blockStep_size edgeMat (clampPixelSize pixelSize) y x o
    exact ⟨h1.trans ho.1, h2.trans ho.2.1, h3.trans ho.2.2⟩

/-- C7. Determinism without carry-over: when a run of `processImage` on a non-empty source image
succeeds (which it only does with 1, 3 or 4 working channels), the coordinate sequence (order
included) and the visualization bitmap it leaves are the same whatever the two out-parameters
held at the call; so a second run on the results of the first, with the same image and
parameters, leaves identical results. -/
theorem processImage_no_carry_over (cv : Cv) (originalMat : Mat) (params : ProcessingParams)
    (art₁ art₂ : Mat) (coords₁ coords₂ : List Vector2i)
    (hne : originalMat.empty = false)
    (hsucc : (processImage cv originalMat art₁ params coords₁).report = Report.done) :
    (processImage cv originalMat art₂ params coords₂).report = Report.done
    ∧ (processImage cv originalMat art₂ params coords₂).out.outBlockCoords
        = (processImage cv originalMat art₁ params coords₁).out.outBlockCoords
    ∧ (processImage cv originalMat art₂ params coords₂).out.outPixelArtMat
        = (processImage cv originalMat art₁ params coords₁).out.outPixelArtMat
    ∧ (processImage cv originalMat
          (processImage cv originalMat art₁ params coords₁).out.outPixelArtMat params
          (processImage cv originalMat art₁ params coords₁).out.outBlockCoords).out.outBlockCoords
        = (processImage cv originalMat art₁ params coords₁).out.outBlockCoords
    ∧ (processImage cv originalMat
          (processImage cv originalMat art₁ params coords₁).out.outPixelArtMat params
          (processImage cv originalMat art₁ params coords₁).out.outBlockCoords).out.outPixelArtMat
        = (processImage cv originalMat art₁ params coords₁).out.outPixelArtMat := by
  have key : ∀ (art art' : Mat) (coords coords' : List Vector2i),
      (processImage cv originalMat art params coords).report = Report.done →
      (processImage cv originalMat art' params coords').report = Report.done
      ∧ (processImage cv originalMat art' params coords').out.outBlockCoords
          = (processImage cv originalMat art params coords).out.outBlockCoords
      ∧ (processImage cv originalMat art' params coords').out.outPixelArtMat
          = (processImage cv originalMat art params coords).out.outPixelArtMat := by
    intro art art' coords coords'
    unfold processImage
    simp only [hne, Bool.false_eq_true, if_false]
    cases scaleStep cv params _ with
    | none => intro h; exact absurd h (by simp)
    | some scaled =>
      simp only []
      cases blurStep cv params _ with
      | none => intro h; exact absurd h (by simp)
      | some blurred =>
        simp only [finishImage]
        cases grayscaleStep cv _ with
        | none => intro h; exact absurd h (by simp)
        | some grayMat => intro _; exact ⟨rfl, rfl, rfl⟩
  obtain ⟨h1, h2, h3⟩ := key art₁ art₂ coords₁ coords₂ hsucc
  obtain ⟨-, h4, h5⟩ := key art₁ (processImage cv originalMat art₁ params coords₁).out.outPixelArtMat
    coords₁ (processImage cv originalMat art₁ params coords₁).out.outBlockCoords hsucc
  exact ⟨h1, h2, h3, h4, h5⟩

theorem processImage_no_carry_over_witness :
    (processImage Cv.sample sampleEdgeMap (Mat.zeros 1 1) ProcessingParams.identity
        [⟨9, 9⟩]).out.outBlockCoords
      = (processImage Cv.sample sampleEdgeMap Mat.nil ProcessingParams.identity
        []).out.outBlockCoords :=
  (processImage_no_carry_over Cv.sample sampleEdgeMap ProcessingParams.identity Mat.nil
    (Mat.zeros 1 1) [] [⟨9, 9⟩] (by decide) (by decide)).2.1

/-- C6, amended. Whenever `processImage` fails (empty source image, or a working image with a
channel count other than 1, 3 or 4), and more generally whenever it does not run to the end, it
leaves `outPixelArtMat` exactly as it was at the call, and `outBlockCoords` as it was (empty
source) or cleared (any later exit); so after a failed run both outputs are empty whenever they
were empty at the call, which is how the caller hands them over after every load. -/
theorem processImage_failure_outputs (cv : Cv) (originalMat : Mat) (outPixelArtMat : Mat)
    (params : ProcessingParams) (outBlockCoords : List Vector2i)
    (hfail : (processImage cv originalMat outPixelArtMat params outBlockCoords).report
      ≠ Report.done) :
    (processImage cv originalMat outPixelArtMat params outBlockCoords).out.outPixelArtMat
        = outPixelArtMat
    ∧ (processImage cv originalMat outPixelArtMat params outBlockCoords).out.outBlockCoords
        = (if originalMat.empty = true then outBlockCoords else [])
    ∧ (outPixelArtMat.empty = true → outBlockCoords = [] →
        (processImage cv originalMat outPixelArtMat params
          outBlockCoords).out.outPixelArtMat.empty = true
        ∧ (processImage cv originalMat outPixelArtMat params
          outBlockCoords).out.outBlockCoords = []) := by
  have key : (processImage cv originalMat outPixelArtMat params outBlockCoords).out.outPixelArtMat
        = outPixelArtMat
      ∧ (processImage cv originalMat outPixelArtMat params outBlockCoords).out.outBlockCoords
        = (if originalMat.empty = true then outBlockCoords else []) := by
    revert hfail
    unfold processImage
    by_cases he : originalMat.empty = true
    · simp [he]
    · simp only [he, if_false]
      cases scaleStep cv params _ with
      | none => intro _; exact ⟨rfl, rfl⟩
      | some scaled =>
        simp only []
        cases blurStep cv params _ with
        | none => intro _; exact ⟨rfl, rfl⟩
        | some blurred =>
          simp only [finishImage]
          cases grayscaleStep cv _ with
          | none => intro _; exact ⟨rfl, rfl⟩
          | some grayMat => intro h; exact absurd rfl h
  refine ⟨key.1, key.2, fun hart hcoords => ?_⟩
  rw [key.1, key.2, hcoords]
  exact ⟨hart, by split_ifs <;> rfl⟩

theorem processImage_failure_outputs_witness :
    (processImage Cv.sample twoChannelMat Mat.nil ProcessingParams.identity
        []).out.outPixelArtMat.empty = true
    ∧ (processImage Cv.sample twoChannelMat Mat.nil ProcessingParams.identity
        []).out.outBlockCoords = [] :=
  (processImage_failure_outputs Cv.sample twoChannelMat Mat.nil ProcessingParams.identity []
    (by decide)).2.2 (by decide) rfl

/-- C6, as stated, fails, at two failing runs entered with a non-empty 1 x 1 bitmap in
`outPixelArtMat` and the coordinate `(0, 0)` in `outBlockCoords`. With an empty source image
`processImage` reports the empty input and leaves both out-parameters as they were; with a
two-channel source image it reports the unsupported channel count, has cleared the coordinates,
and leaves the bitmap as it was, so the bitmap is not empty after either failure. -/
theorem processImage_failure_leaves_stale_outputs :
    (processImage Cv.sample Mat.nil (Mat.zeros 1 1) ProcessingParams.identity
        [⟨0, 0⟩]).report = Report.emptyInput
    ∧ (processImage Cv.sample Mat.nil (Mat.zeros 1 1) ProcessingParams.identity
        [⟨0, 0⟩]).out.outBlockCoords = [⟨0, 0⟩]
    ∧ (processImage Cv.sample Mat.nil (Mat.zeros 1 1) ProcessingParams.identity
        [⟨0, 0⟩]).out.outPixelArtMat.empty = false
    ∧ (processImage Cv.sample twoChannelMat (Mat.zeros 1 1) ProcessingParams.identity
        [⟨0, 0⟩]).report = Report.unsupportedChannels 2
    ∧ (processImage Cv.sample twoChannelMat (Mat.zeros 1 1) ProcessingParams.identity
        [⟨0, 0⟩]).out.outBlockCoords = []
    ∧ (processImage Cv.sample twoChannelMat (Mat.zeros 1 1) ProcessingParams.identity
        [⟨0, 0⟩]).out.outPixelArtMat.empty = false := by
  refine ⟨by decide, by decide, by decide, by decide, by decide, by decide⟩

/-! ## Losslessness of the encoder -/

theorem digitChar_spec (k : Nat) (hk : k < 10) :
    (Nat.digitChar k).toNat - 48 = k ∧ (Nat.digitChar k).isDigit = true := by
  interval_cases k <;> exact ⟨rfl, rfl⟩

theorem decimalValue_append_singleton (l : List Char) (c : Char) :
    decimalValue (l ++ [c]) = decimalValue l * 10 + (c.toNat - 48) := by
  simp [decimalValue, List.foldl_append]

theorem toDigitsCore_spec : ∀ (fuel n : Nat) (ds : List Char), n < fuel →
    ∃ l, Nat.toDigitsCore 10 fuel n ds = l ++ ds ∧ decimalValue l = n
      ∧ ∀ c ∈ l, c.isDigit = true := by
  intro fuel
  induction fuel with
  | zero => intro n ds hn; omega
  | succ fuel ih =>
    intro n ds hn
    have hd := digitChar_spec (n % 10) (Nat.mod_lt _ (by decide))
    simp only [Nat.toDigitsCore]
    split_ifs with h0
    · refine ⟨[Nat.digitChar (n % 10)], rfl, ?_, ?_⟩
      · have := decimalValue_append_singleton [] (Nat.digitChar (n % 10))
        simp only [List.nil_append] at this
        rw [this, hd.1]
        simp only [decimalValue, List.foldl_nil]
        omega
      · intro c hc
        rw [List.mem_singleton] at hc
        rw [hc]
        exact hd.2
    · obtain ⟨l, hl, hv, hdig⟩ := ih (n / 10) (Nat.digitChar (n % 10) :: ds) (by omega)
      refine ⟨l ++ [Nat.digitChar (n % 10)], ?_, ?_, ?_⟩
      · rw [hl]
        simp
      · rw [decimalValue_append_singleton, hv, hd.1]
        omega
      · intro c hc
        rw [List.mem_append, List.mem_singleton] at hc
        rcases hc with hc | hc
        · exact hdig c hc
        · rw [hc]
          exact hd.2

theorem toDigits_spec (n : Nat) :
    decimalValue (Nat.toDigits 10 n) = n ∧ ∀ c ∈ Nat.toDigits 10 n, c.isDigit = true := by
  obtain ⟨l, hl, hv, hdig⟩ := toDigitsCore_spec (n + 1) n [] (by omega)
  rw [List.append_nil] at hl
  unfold Nat.toDigits
  rw [hl]
  exact ⟨hv, hdig⟩

theorem to_string_data (z : Int) :
    (to_string z).data
      = if z < 0 then '-' :: Nat.toDigits 10 z.natAbs else Nat.toDigits 10 z.natAbs := by
  cases z with
  | ofNat m =>
    have : ¬ (Int.ofNat m < 0) := not_lt.mpr (Int.ofNat_nonneg m)
    rw [if_neg this]
    rfl
  | negSucc m =>
    have : Int.negSucc m < 0 := Int.negSucc_lt_zero m
    rw [if_pos this]
    rfl

theorem to_string_numeric (z : Int) : ∀ c ∈ (to_string z).data, isNumeric c = true := by
  intro c hc
  rw [to_string_data] at hc
  have hdig := (toDigits_spec z.natAbs).2
  unfold isNumeric
  split_ifs at hc
  · rcases List.mem_cons.mp hc with h | h
    · rw [h]; rfl
    · rw [hdig c h]; rfl
  · rw [hdig c hc]; rfl

theorem to_string_injective (a b : Int) (h : (to_string a).data = (to_string b).data) :
    a = b := by
  rw [to_string_data, to_string_data] at h
  have ha := toDigits_spec a.natAbs
  have hb := toDigits_spec b.natAbs
  have hminus : ∀ n : Nat, '-' ∉ Nat.toDigits 10 n := by
    intro n hmem
    have := (toDigits_spec n).2 _ hmem
    exact absurd this (by decide)
  split_ifs at h with h1 h2 h2
  · have h' := (List.cons.inj h).2
    have : a.natAbs = b.natAbs := by rw [← ha.1, ← hb.1, h']
    omega
  · exact absurd (h ▸ List.mem_cons_self _ _) (hminus _)
  · exact absurd (h.symm ▸ List.mem_cons_self _ _) (hminus _)
  · have : a.natAbs = b.natAbs := by rw [← ha.1, ← hb.1, h]
    omega

theorem numeric_prefix_unique (l₁ : List Char) :
    ∀ (l₂ : List Char) (c₁ c₂ : Char) (r₁ r₂ : List Char),
      (∀ c ∈ l₁, isNumeric c = true) → (∀ c ∈ l₂, isNumeric c = true) →
      isNumeric c₁ = false → isNumeric c₂ = false →
      l₁ ++ c₁ :: r₁ = l₂ ++ c₂ :: r₂ → l₁ = l₂ ∧ r₁ = r₂ := by
  induction l₁ with
  | nil =>
    intro l₂ c₁ c₂ r₁ r₂ _ h₂ hc₁ _ h
    cases l₂ with
    | nil => exact ⟨rfl, (List.cons.inj h).2⟩
    | cons d l₂ =>
      have hd := h₂ d (List.mem_cons_self _ _)
      rw [← (List.cons.inj h).1, hc₁] at hd
      exact absurd hd (by decide)
  | cons d l₁ ih =>
    intro l₂ c₁ c₂ r₁ r₂ h₁ h₂ hc₁ hc₂ h
    cases l₂ with
    | nil =>
      have hd := h₁ d (List.mem_cons_self _ _)
      rw [(List.cons.inj h).1, hc₂] at hd
      exact absurd hd (by decide)
    | cons e l₂ =>
      obtain ⟨hde, htl⟩ := List.cons.inj h
      obtain ⟨hl, hr⟩ := ih l₂ c₁ c₂ r₁ r₂ (fun c hc => h₁ c (List.mem_cons_of_mem _ hc))
        (fun c hc => h₂ c (List.mem_cons_of_mem _ hc)) hc₁ hc₂ htl
      exact ⟨by rw [hde, hl], hr⟩

theorem entry_unique (opening closing : String) (k : Char) (ks : List Char)
    (hclose : closing.data = k :: ks) (hk : isNumeric k = false) (a b : Vector2i)
    (t₁ t₂ : List Char)
    (h : (opening ++ to_string a.x ++ ", " ++ to_string a.y ++ closing).data ++ t₁
      = (opening ++ to_string b.x ++ ", " ++ to_string b.y ++ closing).data ++ t₂) :
    a = b ∧ t₁ = t₂ := by
  have hsep : ", ".data = [',', ' '] := rfl
  simp only [String.data_append, List.append_assoc, hsep, hclose, List.cons_append,
    List.nil_append] at h
  have h1 := List.append_cancel_left h
  obtain ⟨hx, h2⟩ := numeric_prefix_unique _ _ ',' ',' _ _ (to_string_numeric a.x)
    (to_string_numeric b.x) rfl rfl h1
  have h3 := (List.cons.inj h2).2
  obtain ⟨hy, h4⟩ := numeric_prefix_unique _ _ k k _ _ (to_string_numeric a.y)
    (to_string_numeric b.y) hk hk h3
  have hx' := to_string_injective _ _ hx
  have hy' := to_string_injective _ _ hy
  refine ⟨?_, List.append_cancel_left h4⟩
  cases a
  cases b
  simp only at hx' hy'
  rw [hx', hy']

theorem entryLines_data_cons (e : String) (rest : List String) :
    (entryLines (e :: rest)).data
      = e.data ++ (if rest = [] then ['\n'] else ',' :: '\n' :: (entryLines rest).data) := by
  have h1 : "\n".data = ['\n'] := rfl
  have h2 : ",\n".data = [',', '\n'] := rfl
  cases rest with
  | nil => simp [entryLines, String.data_append, h1]
  | cons b rest => simp [entryLines, String.data_append, h2]

theorem entryLines_injective (opening closing : String) (k : Char) (ks : List Char)
    (hclose : closing.data = k :: ks) (hk : isNumeric k = false) :
    ∀ c₁ c₂ : List Vector2i, c₁ ≠ [] → c₂ ≠ [] →
      (entryLines (c₁.map fun c =>
        opening ++ to_string c.x ++ ", " ++ to_string c.y ++ closing)).data
      = (entryLines (c₂.map fun c =>
        opening ++ to_string c.x ++ ", " ++ to_string c.y ++ closing)).data →
      c₁ = c₂ := by
  intro c₁
  induction c₁ with
  | nil => intro c₂ h; exact absurd rfl h
  | cons a r₁ ih =>
    intro c₂ _ hc₂ h
    cases c₂ with
    | nil => exact absurd rfl hc₂
    | cons b r₂ =>
      rw [List.map_cons, List.map_cons, entryLines_data_cons, entryLines_data_cons] at h
      obtain ⟨hab, ht⟩ := entry_unique opening closing k ks hclose hk a b _ _ h
      rw [hab]
      cases r₁ with
      | nil =>
        cases r₂ with
        | nil => rfl
        | cons y ys => simp at ht
      | cons x xs =>
        cases r₂ with
        | nil => simp at ht
        | cons y ys =>
          simp only [List.map_cons, reduceCtorEq, if_false, List.cons.injEq, true_and] at ht
          rw [ih (y :: ys) (List.cons_ne_nil _ _) (List.cons_ne_nil _ _) ht]

theorem declaration_injective (pre post opening closing : String) (k : Char) (ks : List Char)
    (hclose : closing.data = k :: ks) (hk : isNumeric k = false) (c₁ c₂ : List Vector2i)
    (h₁ : c₁ ≠ []) (h₂ : c₂ ≠ [])
    (h : pre ++ (",\n".intercalate (c₁.map fun c =>
          opening ++ to_string c.x ++ ", " ++ to_string c.y ++ closing) ++ "\n") ++ post
      = pre ++ (",\n".intercalate (c₂.map fun c =>
          opening ++ to_string c.x ++ ", " ++ to_string c.y ++ closing) ++ "\n") ++ post) :
    c₁ = c₂ := by
  have hmap : ∀ (f : Vector2i → String) (l : List Vector2i), l ≠ [] → l.map f ≠ [] := by
    intro f l hl hnil
    exact hl (List.map_eq_nil_iff.mp hnil)
  rw [intercalate_newline _ (hmap _ _ h₁), intercalate_newline _ (hmap _ _ h₂)] at h
  have hd := congrArg String.data h
  simp only [String.data_append, List.append_assoc] at hd
  exact entryLines_injective opening closing k ks hclose hk c₁ c₂ h₁ h₂
    (List.append_cancel_right (List.append_cancel_left hd))

theorem generateCode_ne_nil_ne (coords : List Vector2i) (hne : coords ≠ []) (format : String)
    (hf : format = "csharp" ∨ format = "js" ∨ format = "python") :
    generateCode coords format ≠ generateCode [] format := by
  intro h
  rw [generateCode_of_ne_nil coords hne,
    show generateCode [] format = "// No edge blocks detected." from rfl] at h
  have hd := congrArg (fun s : String => s.data.head?) h
  rcases hf with hf | hf | hf <;> subst hf <;>
    simp [String.data_append, List.head?_append] at hd

/-- C8. Each of the three formats encodes the coordinate sequence losslessly: for a recognised
format, two coordinate sequences (integer components of either sign, possibly empty) with the
same generated text are the same sequence. -/
theorem generateCode_injective (format : String)
    (hf : format = "csharp" ∨ format = "js" ∨ format = "python") (c₁ c₂ : List Vector2i)
    (h : generateCode c₁ format = generateCode c₂ format) : c₁ = c₂ := by
  by_cases h₁ : c₁ = []
  · by_cases h₂ : c₂ = []
    · rw [h₁, h₂]
    · rw [h₁] at h
      exact absurd h.symm (generateCode_ne_nil_ne c₂ h₂ format hf)
  · by_cases h₂ : c₂ = []
    · rw [h₂] at h
      exact absurd h (generateCode_ne_nil_ne c₁ h₁ format hf)
    · rw [generateCode_of_ne_nil c₁ h₁, generateCode_of_ne_nil c₂ h₂] at h
      rcases hf with hf | hf | hf
      · subst hf
        rw [if_pos rfl, if_pos rfl] at h
        exact declaration_injective _ _ "    (" ")" ')' [] rfl rfl c₁ c₂ h₁ h₂ h
      · subst hf
        rw [if_neg (by decide), if_pos rfl, if_neg (by decide), if_pos rfl] at h
        exact declaration_injective _ _ "  [" "]" ']' [] rfl rfl c₁ c₂ h₁ h₂ h
      · subst hf
        rw [if_neg (by decide), if_neg (by decide), if_pos rfl, if_neg (by decide),
          if_neg (by decide), if_pos rfl] at h
        exact declaration_injective _ _ "    (" ")" ')' [] rfl rfl c₁ c₂ h₁ h₂ h

theorem generateCode_injective_witness :
    generateCode [⟨-3, 4⟩, ⟨0, 12⟩] "python" = "edge_pixels = [\n    (-3, 4),\n    (0, 12)\n]"
    ∧ ([⟨-3, 4⟩, ⟨0, 12⟩] : List Vector2i) = [⟨-3, 4⟩, ⟨0, 12⟩] :=
  ⟨by decide,
    generateCode_injective "python" (by decide) [⟨-3, 4⟩, ⟨0, 12⟩] [⟨-3, 4⟩, ⟨0, 12⟩] rfl⟩

/-! ## The visualization bitmap -/

theorem blockStep_px (edgeMat : Mat) (p bx bz : Nat) (o : Outputs)
    (hrows : o.outPixelArtMat.rows = edgeMat.rows) (hcols : o.outPixelArtMat.cols = edgeMat.cols)
    (r c ch : Nat) :
    (blockStep edgeMat p (bz * p) (bx * p) o).outPixelArtMat.px r c ch
      = if blockPaints edgeMat p bx bz r c = true then (if ch = 0 then 255 else 0)
        else o.outPixelArtMat.px r c ch := by
  unfold blockStep blockPaints blockActive
  simp only [hrows, hcols, Nat.mul_one, Bool.and_eq_true, decide_eq_true_eq]
  by_cases hz : min p (edgeMat.cols - bx * p) = 0 ∨ min p (edgeMat.rows - bz * p) = 0
  · have hnot : ¬ 0 < roiMean edgeMat (bx * p) (bz * p) (min p (edgeMat.cols - bx * p))
        (min p (edgeMat.rows - bz * p)) := by
      rw [roiMean_pos_iff]
      rintro ⟨r', c', hr, hc, -⟩
      omega
    simp [hz, hnot]
  · simp only [hz, if_false]
    by_cases hact : 0 < roiMean edgeMat (bx * p) (bz * p) (min p (edgeMat.cols - bx * p))
        (min p (edgeMat.rows - bz * p))
    · simp only [hact, if_true, true_and]
      by_cases hfit : bx * p + 1 + max 1 (p - 2) ≤ edgeMat.cols
          ∧ bz * p + 1 + max 1 (p - 2) ≤ edgeMat.rows
      · simp only [hfit, and_self, if_true, Mat.rectangle, hrows, hcols, decide_eq_true_eq]
        congr 1
        apply propext
        constructor
        · rintro ⟨h1, h2, h3, h4, -, -⟩
          exact ⟨h1, h2, h3, h4⟩
        · rintro ⟨h1, h2, h3, h4⟩
          exact ⟨h1, h2, h3, h4, by omega, by omega⟩
      · simp only [hfit, if_false]
        by_cases h11 : min p (edgeMat.cols - bx * p) = 1 ∧ min p (edgeMat.rows - bz * p) = 1
        · simp only [h11, and_self, if_true, Mat.rectangle, hrows, hcols, decide_eq_true_eq]
          congr 1
          apply propext
          constructor
          · rintro ⟨h1, h2, h3, h4, -, -⟩
            exact ⟨by omega, by omega⟩
          · rintro ⟨h1, h2⟩
            refine ⟨by omega, by omega, by omega, by omega, by omega, by omega⟩
        · simp [h11]
    · simp [hact]

theorem colLoop_size (edgeMat : Mat) (p : Nat) (hp : 0 < p) (y x : Nat) (o : Outputs) :
    (colLoop edgeMat p hp y x o).outPixelArtMat.rows = o.outPixelArtMat.rows
    ∧ (colLoop edgeMat p hp y x o).outPixelArtMat.cols = o.outPixelArtMat.cols := by
  apply colLoop_invariant edgeMat p hp y
    (fun o' => o'.outPixelArtMat.rows = o.outPixelArtMat.rows
      ∧ o'.outPixelArtMat.cols = o.outPixelArtMat.cols) _ _ x o rfl ⟨rfl, rfl⟩
  intro x' o' ho'
  obtain ⟨h1, h2, -⟩ := blockStep_size edgeMat p y x' o'
  exact ⟨h1.trans ho'.1, h2.trans ho'.2⟩

theorem colLoop_px (edgeMat : Mat) (p : Nat) (hp : 0 < p) (bz r c ch : Nat) :
    ∀ (n k : Nat) (o : Outputs), blockCount edgeMat.cols p - k = n →
      o.outPixelArtMat.rows = edgeMat.rows → o.outPixelArtMat.cols = edgeMat.cols →
      ((∃ bx, k ≤ bx ∧ bx < blockCount edgeMat.cols p ∧ blockPaints edgeMat p bx bz r c = true) →
        (colLoop edgeMat p hp (bz * p) (k * p) o).outPixelArtMat.px r c ch
          = if ch = 0 then 255 else 0)
      ∧ ((∀ bx, k ≤ bx → bx < blockCount edgeMat.cols p →
            blockPaints edgeMat p bx bz r c = false) →
        (colLoop edgeMat p hp (bz * p) (k * p) o).outPixelArtMat.px r c ch
          = o.outPixelArtMat.px r c ch) := by
  intro n
  induction n with
  | zero =>
    intro k o hn _ _
    have hk : ¬ k * p < edgeMat.cols := by
      rw [← lt_blockCount_iff _ _ _ hp]
      omega
    rw [colLoop, if_neg hk]
    refine ⟨?_, fun _ => rfl⟩
    rintro ⟨bx, h1, h2, -⟩
    omega
  | succ n ih =>
    intro k o hn hrows hcols
    have hk : k * p < edgeMat.cols := by
      rw [← lt_blockCount_iff _ _ _ hp]
      omega
    obtain ⟨s1, s2, -⟩ := blockStep_size edgeMat p (bz * p) (k * p) o
    obtain ⟨hA, hB⟩ := ih (k + 1) (blockStep edgeMat p (bz * p) (k * p) o) (by omega)
      (s1.trans hrows) (s2.trans hcols)
    have hstep := blockStep_px edgeMat p k bz o hrows hcols r c ch
    rw [colLoop, if_pos hk, show k * p + p = (k + 1) * p from (Nat.succ_mul k p).symm]
    constructor
    · rintro ⟨bx, h1, h2, h3⟩
      by_cases hlater : ∃ bx', k + 1 ≤ bx' ∧ bx' < blockCount edgeMat.cols p
          ∧ blockPaints edgeMat p bx' bz r c = true
      · exact hA hlater
      · have hnone : ∀ bx', k + 1 ≤ bx' → bx' < blockCount edgeMat.cols p →
            blockPaints edgeMat p bx' bz r c = false := by
          intro bx' g1 g2
          by_contra g3
          exact hlater ⟨bx', g1, g2, by simpa using g3⟩
        have hbx : bx = k := by
          by_contra hne
          have := hnone bx (by omega) h2
          rw [h3] at this
          exact absurd this (by decide)
        rw [hB hnone, hstep, ← hbx, h3, if_pos rfl]
    · intro hnone
      rw [hB (fun bx' g1 g2 => hnone bx' (by omega) g2), hstep,
        hnone k (Nat.le_refl k) (by omega)]
      simp

theorem rowLoop_px (edgeMat : Mat) (p : Nat) (hp : 0 < p) (r c ch : Nat) :
    ∀ (n j : Nat) (o : Outputs), blockCount edgeMat.rows p - j = n →
      o.outPixelArtMat.rows = edgeMat.rows → o.outPixelArtMat.cols = edgeMat.cols →
      ((∃ bz bx, j ≤ bz ∧ bz < blockCount edgeMat.rows p ∧ bx < blockCount edgeMat.cols p
          ∧ blockPaints edgeMat p bx bz r c = true) →
        (rowLoop edgeMat p hp (j * p) o).outPixelArtMat.px r c ch = if ch = 0 then 255 else 0)
      ∧ ((∀ bz bx, j ≤ bz → bz < blockCount edgeMat.rows p → bx < blockCount edgeMat.cols p →
            blockPaints edgeMat p bx bz r c = false) →
        (rowLoop edgeMat p hp (j * p) o).outPixelArtMat.px r c ch
          = o.outPixelArtMat.px r c ch) := by
  intro n
  induction n with
  | zero =>
    intro j o hn _ _
    have hj : ¬ j * p < edgeMat.rows := by
      rw [← lt_blockCount_iff _ _ _ hp]
      omega
    rw [rowLoop, if_neg hj]
    refine ⟨?_, fun _ => rfl⟩
    rintro ⟨bz, bx, h1, h2, -⟩
    omega
  | succ n ih =>
    intro j o hn hrows hcols
    have hj : j * p < edgeMat.rows := by
      rw [← lt_blockCount_iff _ _ _ hp]
      omega
    obtain ⟨s1, s2⟩ := colLoop_size edgeMat p hp (j * p) 0 o
    obtain ⟨hA, hB⟩ := ih (j + 1) (colLoop edgeMat p hp (j * p) 0 o) (by omega)
      (s1.trans hrows) (s2.trans hcols)
    obtain ⟨hC, hD⟩ := colLoop_px edgeMat p hp j r c ch (blockCount edgeMat.cols p) 0 o
      (by omega) hrows hcols
    rw [Nat.zero_mul] at hC hD
    rw [rowLoop, if_pos hj, show j * p + p = (j + 1) * p from (Nat.succ_mul j p).symm]
    constructor
    · rintro ⟨bz, bx, h1, h2, h3, h4⟩
      by_cases hlater : ∃ bz' bx', j + 1 ≤ bz' ∧ bz' < blockCount edgeMat.rows p
          ∧ bx' < blockCount edgeMat.cols p ∧ blockPaints edgeMat p bx' bz' r c = true
      · exact hA hlater
      · have hnone : ∀ bz' bx', j + 1 ≤ bz' → bz' < blockCount edgeMat.rows p →
            bx' < blockCount edgeMat.cols p → blockPaints edgeMat p bx' bz' r c = false := by
          intro bz' bx' g1 g2 g3
          by_contra g4
          exact hlater ⟨bz', bx', g1, g2, g3, by simpa using g4⟩
        have hbz : bz = j := by
          by_contra hne
          have := hnone bz bx (by omega) h2 h3
          rw [h4] at this
          exact absurd this (by decide)
        rw [hB hnone]
        exact hC ⟨bx, Nat.zero_le _, h3, hbz ▸ h4⟩
    · intro hnone
      rw [hB (fun bz' bx' g1 g2 g3 => hnone bz' bx' (by omega) g2 g3)]
      exact hD (fun bx' _ g2 => hnone j bx' (Nat.le_refl j) (by omega) g2)

theorem pixelate_px (edgeMat : Mat) (pixelSize : Int) (coords : List Vector2i) (r c : Nat) :
    ((∃ bz bx, bz < blockCount edgeMat.rows (clampPixelSize pixelSize)
        ∧ bx < blockCount edgeMat.cols (clampPixelSize pixelSize)
        ∧ blockPaints edgeMat (clampPixelSize pixelSize) bx bz r c = true) →
      (pixelate edgeMat pixelSize coords).outPixelArtMat.px r c 0 = 255)
    ∧ ((∀ bz bx, bz < blockCount edgeMat.rows (clampPixelSize pixelSize) →
        bx < blockCount edgeMat.cols (clampPixelSize pixelSize) →
        blockPaints edgeMat (clampPixelSize pixelSize) bx bz r c = false) →
      (pixelate edgeMat pixelSize coords).outPixelArtMat.px r c 0 = 0) := by
  obtain ⟨hA, hB⟩ := rowLoop_px edgeMat (clampPixelSize pixelSize)
    (clampPixelSize_pos pixelSize) r c 0 (blockCount edgeMat.rows (clampPixelSize pixelSize)) 0
    ⟨Mat.zeros edgeMat.rows edgeMat.cols, coords⟩ (by omega) rfl rfl
  rw [Nat.zero_mul] at hA hB
  constructor
  · rintro ⟨bz, bx, h1, h2, h3⟩
    exact hA ⟨bz, bx, Nat.zero_le _, h1, h2, h3⟩
  · intro hnone
    exact hB (fun bz bx _ g2 g3 => hnone bz bx g2 g3)

theorem blockPaints_block (edgeMat : Mat) (p bx bz r c : Nat) (hp : 2 ≤ p)
    (h : blockPaints edgeMat p bx bz r c = true) :
    blockActive edgeMat p bx bz = true
    ∧ bx * p ≤ c ∧ c < bx * p + p ∧ c < edgeMat.cols
    ∧ bz * p ≤ r ∧ r < bz * p + p ∧ r < edgeMat.rows := by
  unfold blockPaints at h
  rw [Bool.and_eq_true] at h
  obtain ⟨hact, h⟩ := h
  refine ⟨hact, ?_⟩
  split_ifs at h with hfit h11
  · rw [decide_eq_true_eq] at h
    omega
  · rw [decide_eq_true_eq] at h
    omega

theorem block_index_eq (p b i : Nat) (h1 : b * p ≤ i) (h2 : i < b * p + p) : i / p = b := by
  apply Nat.div_eq_of_lt_le h1
  rw [Nat.succ_mul]
  exact h2

theorem pixelate_px_iff (edgeMat : Mat) (pixelSize : Int) (coords : List Vector2i) (r c : Nat) :
    ((pixelate edgeMat pixelSize coords).outPixelArtMat.px r c 0 = 255
      ↔ blockPaints edgeMat (clampPixelSize pixelSize) (c / clampPixelSize pixelSize)
          (r / clampPixelSize pixelSize) r c = true)
    ∧ ((pixelate edgeMat pixelSize coords).outPixelArtMat.px r c 0 = 0
      ∨ (pixelate edgeMat pixelSize coords).outPixelArtMat.px r c 0 = 255) := by
  have hp2 : 2 ≤ clampPixelSize pixelSize := by unfold clampPixelSize; omega
  have hp0 : 0 < clampPixelSize pixelSize := by omega
  obtain ⟨hA, hB⟩ := pixelate_px edgeMat pixelSize coords r c
  generalize clampPixelSize pixelSize = p at *
  by_cases hpaint : blockPaints edgeMat p (c / p) (r / p) r c = true
  · obtain ⟨-, h1, -, h3, h4, -, h6⟩ := blockPaints_block edgeMat p _ _ r c hp2 hpaint
    have h255 := hA ⟨r / p, c / p, (lt_blockCount_iff _ _ _ hp0).mpr (by omega),
      (lt_blockCount_iff _ _ _ hp0).mpr (by omega), hpaint⟩
    exact ⟨⟨fun _ => hpaint, fun _ => h255⟩, Or.inr h255⟩
  · have h0 := hB (fun bz bx _ _ => by
      by_contra hne
      have ht : blockPaints edgeMat p bx bz r c = true := by simpa using hne
      obtain ⟨-, h1, h2, -, h4, h5, -⟩ := blockPaints_block edgeMat p bx bz r c hp2 ht
      rw [block_index_eq p bx c h1 h2, block_index_eq p bz r h4 h5] at hpaint
      exact hpaint ht)
    refine ⟨⟨fun h => ?_, fun h => absurd h hpaint⟩, Or.inl h0⟩
    rw [h0] at h
    exact absurd h (by decide)

theorem activeBlock_iff (edgeMat : Mat) (p bx bz : Nat) :
    activeBlock edgeMat p (bx * p) (bz * p) ↔ blockActive edgeMat p bx bz = true := by
  rw [blockActive_iff]
  unfold activeBlock
  simp only [lt_min_iff]
  constructor
  · rintro ⟨col, row, h1, ⟨h2, h3⟩, h4, ⟨h5, h6⟩, hne⟩
    exact ⟨col, row, h1, h2, h3, h4, h5, h6, hne⟩
  · rintro ⟨col, row, h1, h2, h3, h4, h5, h6, hne⟩
    exact ⟨col, row, h1, ⟨h2, h3⟩, h4, ⟨h5, h6⟩, hne⟩

theorem blockPaints_iff_spec (edgeMat : Mat) (p i j : Nat) (hp : 2 ≤ p) :
    blockPaints edgeMat p (i / p) (j / p) j i = true ↔ visualizationSpec edgeMat p i j := by
  have hp0 : 0 < p := by omega
  have hi1 : i / p * p ≤ i := Nat.div_mul_le_self i p
  have hi2 : i < i / p * p + p := Nat.lt_div_mul_add hp0
  have hj1 : j / p * p ≤ j := Nat.div_mul_le_self j p
  have hj2 : j < j / p * p + p := Nat.lt_div_mul_add hp0
  unfold blockPaints visualizationSpec
  rw [Nat.mul_comm p (i / p), Nat.mul_comm p (j / p), activeBlock_iff, Bool.and_eq_true]
  generalize blockActive edgeMat p (i / p) (j / p) = act
  generalize i / p * p = x at hi1 hi2
  generalize j / p * p = y at hj1 hj2
  apply and_congr_right
  intro _
  by_cases hfit : x + 1 + max 1 (p - 2) ≤ edgeMat.cols ∧ y + 1 + max 1 (p - 2) ≤ edgeMat.rows
  · simp only [hfit, and_self, if_true, decide_eq_true_eq, not_true_eq_false, false_and,
      or_false, true_and]
    omega
  · simp only [hfit, if_false, not_false_eq_true, true_and, false_and, false_or]
    split_ifs with h11
    · rw [decide_eq_true_eq]
      omega
    · simp only [Bool.false_eq_true, false_iff]
      omega

theorem pixelate_lit_iff_spec (edgeMat : Mat) (pixelSize : Int) (i j : Nat) :
    (pixelate edgeMat pixelSize []).outPixelArtMat.px j i 0 = 255
      ↔ visualizationSpec edgeMat (clampPixelSize pixelSize) i j := by
  rw [(pixelate_px_iff edgeMat pixelSize [] j i).1]
  exact blockPaints_iff_spec edgeMat _ i j (by unfold clampPixelSize; omega)

theorem visualizationSpec_in_block (edgeMat : Mat) (p bx bz i j : Nat) (hp : 2 ≤ p)
    (hi1 : bx * p ≤ i) (hi2 : i < bx * p + p) (hj1 : bz * p ≤ j) (hj2 : j < bz * p + p) :
    visualizationSpec edgeMat p i j ↔
      activeBlock edgeMat p (bx * p) (bz * p)
      ∧ ((bx * p + 1 + max 1 (p - 2) ≤ edgeMat.cols ∧ bz * p + 1 + max 1 (p - 2) ≤ edgeMat.rows
          ∧ bx * p + 1 ≤ i ∧ i < bx * p + 1 + max 1 (p - 2)
          ∧ bz * p + 1 ≤ j ∧ j < bz * p + 1 + max 1 (p - 2))
        ∨ (¬ (bx * p + 1 + max 1 (p - 2) ≤ edgeMat.cols
              ∧ bz * p + 1 + max 1 (p - 2) ≤ edgeMat.rows)
            ∧ min p (edgeMat.cols - bx * p) = 1 ∧ min p (edgeMat.rows - bz * p) = 1
            ∧ i = bx * p ∧ j = bz * p)) := by
  unfold visualizationSpec
  rw [block_index_eq p bx i hi1 hi2, block_index_eq p bz j hj1 hj2, Nat.mul_comm p bx,
    Nat.mul_comm p bz]
  apply and_congr_right
  intro _
  generalize bx * p = x at *
  generalize bz * p = y at *
  omega

/-- C11. Visualization content, for an edge map of size `W x H`, `p = max(2, pixelSize)` and
`d = max(1, p-2)`: the bitmap left by the pixelation loop has size `W x H`; every pixel is 0 or
255; pixel `(i, j)` (column `i`, row `j`) is 255 iff its block, with origin
`(p*floor(i/p), p*floor(j/p))`, is active and either the inset square fits the bitmap and holds
the pixel or the square does not fit, the clipped block is 1 x 1 and the pixel is the block origin
(`visualizationSpec`); for a full `p x p` block the inset square fits and, when the block is
active, exactly `d*d` of its pixels are lit (none when it is not active); a clipped block that is
neither fitting nor 1 x 1 has no lit pixel. -/
theorem pixelate_visualization (edgeMat : Mat) (pixelSize : Int) (p : Nat)
    (hp : (p : Int) = max 2 pixelSize) :
    ((pixelate edgeMat pixelSize []).outPixelArtMat.cols = edgeMat.cols
      ∧ (pixelate edgeMat pixelSize []).outPixelArtMat.rows = edgeMat.rows)
    ∧ (∀ i j, i < edgeMat.cols → j < edgeMat.rows →
        (pixelate edgeMat pixelSize []).outPixelArtMat.px j i 0 = 0
        ∨ (pixelate edgeMat pixelSize []).outPixelArtMat.px j i 0 = 255)
    ∧ (∀ i j, i < edgeMat.cols → j < edgeMat.rows →
        ((pixelate edgeMat pixelSize []).outPixelArtMat.px j i 0 = 255
          ↔ visualizationSpec edgeMat p i j))
    ∧ (∀ bx bz, bx * p + p ≤ edgeMat.cols → bz * p + p ≤ edgeMat.rows →
        (bx * p + 1 + max 1 (p - 2) ≤ edgeMat.cols ∧ bz * p + 1 + max 1 (p - 2) ≤ edgeMat.rows)
        ∧ (activeBlock edgeMat p (bx * p) (bz * p) →
          ((Finset.Ico (bx * p) (bx * p + p) ×ˢ Finset.Ico (bz * p) (bz * p + p)).filter
            (fun ij => (pixelate edgeMat pixelSize []).outPixelArtMat.px ij.2 ij.1 0 = 255)).card
            = max 1 (p - 2) * max 1 (p - 2))
        ∧ (¬ activeBlock edgeMat p (bx * p) (bz * p) →
          ((Finset.Ico (bx * p) (bx * p + p) ×ˢ Finset.Ico (bz * p) (bz * p + p)).filter
            (fun ij => (pixelate edgeMat pixelSize []).outPixelArtMat.px ij.2 ij.1 0 = 255)).card
            = 0))
    ∧ (∀ bx bz, bx * p < edgeMat.cols → bz * p < edgeMat.rows →
        ¬ (bx * p + 1 + max 1 (p - 2) ≤ edgeMat.cols
          ∧ bz * p + 1 + max 1 (p - 2) ≤ edgeMat.rows) →
        ¬ (min (bx * p + p) edgeMat.cols - bx * p = 1
          ∧ min (bz * p + p) edgeMat.rows - bz * p = 1) →
        ∀ i j, bx * p ≤ i → i < min (bx * p + p) edgeMat.cols →
          bz * p ≤ j → j < min (bz * p + p) edgeMat.rows →
          (pixelate edgeMat pixelSize []).outPixelArtMat.px j i 0 = 0) := by
  have hpc : p = clampPixelSize pixelSize := by
    have := clampPixelSize_cast pixelSize
    omega
  have hp2 : 2 ≤ p := by rw [hpc]; unfold clampPixelSize; omega
  have hlit : ∀ i j, (pixelate edgeMat pixelSize []).outPixelArtMat.px j i 0 = 255
      ↔ visualizationSpec edgeMat p i j := by
    intro i j
    rw [hpc]
    exact pixelate_lit_iff_spec edgeMat pixelSize i j
  have hsize := pixelate_size edgeMat pixelSize []
  refine ⟨⟨hsize.2.1, hsize.1⟩, ?_, ?_, ?_, ?_⟩
  · intro i j _ _
    exact (pixelate_px_iff edgeMat pixelSize [] j i).2
  · intro i j _ _
    exact hlit i j
  · intro bx bz hx hy
    refine ⟨by omega, fun hact => ?_, fun hina => ?_⟩
    swap
    · rw [Finset.card_eq_zero, Finset.filter_eq_empty_iff]
      rintro ⟨i, j⟩ hmem h255
      simp only [Finset.mem_product, Finset.mem_Ico] at hmem
      have hs := (hlit i j).mp h255
      rw [visualizationSpec_in_block edgeMat p bx bz i j hp2 hmem.1.1 hmem.1.2 hmem.2.1
        hmem.2.2] at hs
      exact hina hs.1
    have hset : (Finset.Ico (bx * p) (bx * p + p) ×ˢ Finset.Ico (bz * p) (bz * p + p)).filter
        (fun ij => (pixelate edgeMat pixelSize []).outPixelArtMat.px ij.2 ij.1 0 = 255)
        = Finset.Ico (bx * p + 1) (bx * p + 1 + max 1 (p - 2))
          ×ˢ Finset.Ico (bz * p + 1) (bz * p + 1 + max 1 (p - 2)) := by
      ext ⟨i, j⟩
      simp only [Finset.mem_filter, Finset.mem_product, Finset.mem_Ico]
      constructor
      · rintro ⟨⟨⟨hi1, hi2⟩, ⟨hj1, hj2⟩⟩, h255⟩
        have hs := (hlit i j).mp h255
        rw [visualizationSpec_in_block edgeMat p bx bz i j hp2 hi1 hi2 hj1 hj2] at hs
        obtain ⟨-, hs | hs⟩ := hs
        · omega
        · omega
      · rintro ⟨⟨hi1, hi2⟩, ⟨hj1, hj2⟩⟩
        have hi1' : bx * p ≤ i := by omega
        have hi2' : i < bx * p + p := by omega
        have hj1' : bz * p ≤ j := by omega
        have hj2' : j < bz * p + p := by omega
        refine ⟨⟨⟨hi1', hi2'⟩, ⟨hj1', hj2'⟩⟩, (hlit i j).mpr ?_⟩
        rw [visualizationSpec_in_block edgeMat p bx bz i j hp2 hi1' hi2' hj1' hj2']
        exact ⟨hact, Or.inl ⟨by omega, by omega, hi1, hi2, hj1, hj2⟩⟩
    rw [hset, Finset.card_product, Nat.card_Ico, Nat.card_Ico]
    simp
  · intro bx bz _ _ hnofit hnot11 i j hi1 hi2 hj1 hj2
    have hi2' : i < bx * p + p := by omega
    have hj2' : j < bz * p + p := by omega
    rcases (pixelate_px_iff edgeMat pixelSize [] j i).2 with h0 | h255
    · exact h0
    · have hs := (hlit i j).mp h255
      rw [visualizationSpec_in_block edgeMat p bx bz i j hp2 hi1 hi2' hj1 hj2'] at hs
      obtain ⟨-, hs | hs⟩ := hs
      · exact absurd ⟨hs.1, hs.2.1⟩ hnofit
      · omega

theorem pixelate_visualization_witness :
    (pixelate sampleEdgeMap 3 []).outPixelArtMat.cols = 7
    ∧ (pixelate sampleEdgeMap 3 []).outPixelArtMat.rows = 5
    ∧ (pixelate sampleEdgeMap 3 []).outPixelArtMat.px 1 4 0 = 255
    ∧ (pixelate sampleEdgeMap 3 []).outPixelArtMat.px 4 6 0 = 0 :=
  have h := pixelate_visualization sampleEdgeMap 3 3 (by decide)
  ⟨h.1.1, h.1.2,
    (h.2.2.1 4 1 (by decide) (by decide)).mpr
      ⟨⟨3, 0, by decide, by decide, by decide, by decide, by decide⟩, Or.inl (by decide)⟩,
    h.2.2.2.2 2 1 (by decide) (by decide) (by decide) (by decide) 6 4 (by decide) (by decide)
      (by decide) (by decide)⟩

/-! ## The resize target size -/

theorem roundHalfEven_eq (q : ℚ) (n : ℤ) (h1 : (n : ℚ) - 1 / 2 < q) (h2 : q < n + 1 / 2) :
    roundHalfEven q = n := by
  have hfl : (Rat.floor q : ℚ) ≤ q := Rat.le_floor.mp (le_refl _)
  have hlo : n - 1 ≤ Rat.floor q := by
    rw [Rat.le_floor]
    push_cast
    linarith
  have hhi : Rat.floor q < n + 1 := by
    have : (Rat.floor q : ℚ) < ((n + 1 : ℤ) : ℚ) := by
      push_cast
      linarith
    exact_mod_cast this
  have hcases : Rat.floor q = n ∨ Rat.floor q = n - 1 := by omega
  unfold roundHalfEven
  rcases hcases with h | h
  · rw [h, if_pos (by linarith)]
  · rw [h]
    push_cast
    rw [if_neg (by linarith), if_pos (by linarith)]
    omega

theorem stdRound_eq (q : ℚ) (n : ℤ) (h0 : 0 ≤ q) (h1 : (n : ℚ) - 1 / 2 ≤ q)
    (h2 : q < n + 1 / 2) : stdRound q = n := by
  unfold stdRound
  rw [if_pos h0]
  apply le_antisymm
  · have : Rat.floor (q + 1 / 2) < n + 1 := by
      have hfl : (Rat.floor (q + 1 / 2) : ℚ) ≤ q + 1 / 2 := Rat.le_floor.mp (le_refl _)
      have : (Rat.floor (q + 1 / 2) : ℚ) < ((n + 1 : ℤ) : ℚ) := by
        push_cast
        linarith
      exact_mod_cast this
    omega
  · rw [Rat.le_floor]
    linarith

theorem toFloat_eq (q : ℚ) (e : ℤ) (he : -126 ≤ e) (h1 : (2 : ℚ) ^ e ≤ q)
    (h2 : q < (2 : ℚ) ^ (e + 1)) :
    toFloat q = (roundHalfEven (q / 2 ^ (e - 23)) : ℚ) * 2 ^ (e - 23) := by
  have hpos : 0 < q := lt_of_lt_of_le (zpow_pos (by norm_num) e) h1
  have hlo : e ≤ Int.log 2 q :=
    (Int.zpow_le_iff_le_log (by norm_num) hpos).mp (by simpa using h1)
  have hhi : Int.log 2 q < e + 1 :=
    (Int.lt_zpow_iff_log_lt (by norm_num) hpos).mp (by simpa using h2)
  have hlog : Int.log 2 q = e := by omega
  unfold toFloat
  rw [if_neg hpos.ne', abs_of_pos hpos, hlog, max_eq_left he]

/-- Two worked `float` products of `scaleStep`: `25 * 0.02f` rounds to the `float` 0.5, whose
`std::round` is 1 (the exact product is below 0.5), and `5 * 0.7f` rounds to 3.5, whose
`std::round` is 4 (the exact product is below 3.5). -/
theorem scaleStep_float_examples :
    stdRound (toFloat (toFloat 25 * toFloat (1 / 50))) = 1
    ∧ stdRound (toFloat (toFloat 5 * toFloat (7 / 10))) = 4 := by
  have h25 : toFloat 25 = 25 := by
    rw [toFloat_eq 25 4 (by norm_num) (by norm_num) (by norm_num),
      roundHalfEven_eq _ 13107200 (by norm_num) (by norm_num)]
    norm_num
  have h002 : toFloat (1 / 50) = 5368709 / 268435456 := by
    rw [toFloat_eq (1 / 50) (-6) (by norm_num) (by norm_num) (by norm_num),
      roundHalfEven_eq _ 10737418 (by norm_num) (by norm_num)]
    norm_num
  have h5 : toFloat 5 = 5 := by
    rw [toFloat_eq 5 2 (by norm_num) (by norm_num) (by norm_num),
      roundHalfEven_eq _ 10485760 (by norm_num) (by norm_num)]
    norm_num
  have h07 : toFloat (7 / 10) = 11744051 / 16777216 := by
    rw [toFloat_eq (7 / 10) (-1) (by norm_num) (by norm_num) (by norm_num),
      roundHalfEven_eq _ 11744051 (by norm_num) (by norm_num)]
    norm_num
  have hp1 : toFloat (25 * (5368709 / 268435456)) = 1 / 2 := by
    rw [toFloat_eq _ (-2) (by norm_num) (by norm_num) (by norm_num),
      roundHalfEven_eq _ 16777216 (by norm_num) (by norm_num)]
    norm_num
  have hp2 : toFloat (5 * (11744051 / 16777216)) = 7 / 2 := by
    rw [toFloat_eq _ 1 (by norm_num) (by norm_num) (by norm_num),
      roundHalfEven_eq _ 14680064 (by norm_num) (by norm_num)]
    norm_num
  rw [h25, h002, h5, h07, hp1, hp2]
  exact ⟨stdRound_eq _ 1 (by norm_num) (by norm_num) (by norm_num),
    stdRound_eq _ 4 (by norm_num) (by norm_num) (by norm_num)⟩

theorem blockPaints_adjacent_cols (edgeMat : Mat) (p a b c i j : Nat) (hp : 2 ≤ p)
    (h1 : blockPaints edgeMat p a c j i = true)
    (h2 : blockPaints edgeMat p b c j (i + 1) = true) : a = b := by
  obtain ⟨-, a1, a2, -, c1, c2, -⟩ := blockPaints_block edgeMat p a c j i hp h1
  obtain ⟨-, b1, b2, -, -, -, -⟩ := blockPaints_block edgeMat p b c j (i + 1) hp h2
  rcases Nat.lt_trichotomy a b with h | h | h
  · have hab : (a + 1) * p ≤ b * p := Nat.mul_le_mul_right p h
    rw [Nat.succ_mul] at hab
    unfold blockPaints at h1 h2
    rw [Bool.and_eq_true] at h1 h2
    obtain ⟨-, h1⟩ := h1
    obtain ⟨-, h2⟩ := h2
    split_ifs at h1 h2 <;> simp only [decide_eq_true_eq] at h1 h2 <;> omega
  · exact h
  · have hba : (b + 1) * p ≤ a * p := Nat.mul_le_mul_right p h
    rw [Nat.succ_mul] at hba
    omega

theorem blockPaints_adjacent_rows (edgeMat : Mat) (p a b c i j : Nat) (hp : 2 ≤ p)
    (h1 : blockPaints edgeMat p c a j i = true)
    (h2 : blockPaints edgeMat p c b (j + 1) i = true) : a = b := by
  obtain ⟨-, c1, c2, -, a1, a2, -⟩ := blockPaints_block edgeMat p c a j i hp h1
  obtain ⟨-, -, -, -, b1, b2, -⟩ := blockPaints_block edgeMat p c b (j + 1) i hp h2
  rcases Nat.lt_trichotomy a b with h | h | h
  · have hab : (a + 1) * p ≤ b * p := Nat.mul_le_mul_right p h
    rw [Nat.succ_mul] at hab
    unfold blockPaints at h1 h2
    rw [Bool.and_eq_true] at h1 h2
    obtain ⟨-, h1⟩ := h1
    obtain ⟨-, h2⟩ := h2
    split_ifs at h1 h2 <;> simp only [decide_eq_true_eq] at h1 h2 <;> omega
  · exact h
  · have hba : (b + 1) * p ≤ a * p := Nat.mul_le_mul_right p h
    rw [Nat.succ_mul] at hba
    omega

/-- C13. Spacing between drawn blocks, for any edge map and `p = max(2, pixelSize)`: every lit
(255) pixel of the visualization lies inside the clipped extent of an active block, and two lit
pixels that are horizontal neighbours `(i, j)`, `(i+1, j)` or vertical neighbours `(i, j)`,
`(i, j+1)` lie in the same block, so lit pixels of different blocks are never adjacent. -/
theorem pixelate_spacing (edgeMat : Mat) (pixelSize : Int) (p : Nat)
    (hp : (p : Int) = max 2 pixelSize) :
    (∀ i j, (pixelate edgeMat pixelSize []).outPixelArtMat.px j i 0 = 255 →
      ∃ bx bz, activeBlock edgeMat p (bx * p) (bz * p)
        ∧ bx * p ≤ i ∧ i < min (bx * p + p) edgeMat.cols
        ∧ bz * p ≤ j ∧ j < min (bz * p + p) edgeMat.rows)
    ∧ (∀ i j, (pixelate edgeMat pixelSize []).outPixelArtMat.px j i 0 = 255 →
        (pixelate edgeMat pixelSize []).outPixelArtMat.px j (i + 1) 0 = 255 →
        (i / p, j / p) = ((i + 1) / p, j / p))
    ∧ (∀ i j, (pixelate edgeMat pixelSize []).outPixelArtMat.px j i 0 = 255 →
        (pixelate edgeMat pixelSize []).outPixelArtMat.px (j + 1) i 0 = 255 →
        (i / p, j / p) = (i / p, (j + 1) / p)) := by
  have hpc : p = clampPixelSize pixelSize := by
    have := clampPixelSize_cast pixelSize
    omega
  have hp2 : 2 ≤ p := by rw [hpc]; unfold clampPixelSize; omega
  have hlit : ∀ i j, (pixelate edgeMat pixelSize []).outPixelArtMat.px j i 0 = 255
      ↔ blockPaints edgeMat p (i / p) (j / p) j i = true := by
    intro i j
    rw [hpc]
    exact (pixelate_px_iff edgeMat pixelSize [] j i).1
  refine ⟨?_, ?_, ?_⟩
  · intro i j h
    obtain ⟨hact, h1, h2, h3, h4, h5, h6⟩ :=
      blockPaints_block edgeMat p _ _ j i hp2 ((hlit i j).mp h)
    exact ⟨i / p, j / p, (activeBlock_iff edgeMat p _ _).mpr hact, h1,
      lt_min_iff.mpr ⟨h2, h3⟩, h4, lt_min_iff.mpr ⟨h5, h6⟩⟩
  · intro i j h1 h2
    rw [blockPaints_adjacent_cols edgeMat p _ _ (j / p) i j hp2 ((hlit i j).mp h1)
      ((hlit (i + 1) j).mp h2)]
  · intro i j h1 h2
    rw [blockPaints_adjacent_rows edgeMat p _ _ (i / p) i j hp2 ((hlit i j).mp h1)
      ((hlit i (j + 1)).mp h2)]

theorem pixelate_spacing_witness :
    (pixelate sampleEdgeMap 4 []).outPixelArtMat.px 1 1 0 = 255
    ∧ (pixelate sampleEdgeMap 4 []).outPixelArtMat.px 1 (1 + 1) 0 = 255
    ∧ (1 / 4, 1 / 4) = ((1 + 1) / 4, 1 / 4) :=
  have h1 : (pixelate sampleEdgeMap 4 []).outPixelArtMat.px 1 1 0 = 255 :=
    (pixelate_lit_iff_spec sampleEdgeMap 4 1 1).mpr
      ⟨⟨3, 0, by decide, by decide, by decide, by decide, by decide⟩, Or.inl (by decide)⟩
  have h2 : (pixelate sampleEdgeMap 4 []).outPixelArtMat.px 1 (1 + 1) 0 = 255 :=
    (pixelate_lit_iff_spec sampleEdgeMap 4 (1 + 1) 1).mpr
      ⟨⟨3, 0, by decide, by decide, by decide, by decide, by decide⟩, Or.inl (by decide)⟩
  ⟨h1, h2, (pixelate_spacing sampleEdgeMap 4 4 (by decide)).2.1 1 1 h1 h2⟩

end EdgePixelizer
